import Mathlib

set_option maxRecDepth 400000

/-!
# Verification of the EDGAR filing watcher extraction pipeline

Shallow embedding of `sec_notifications.py`: the daily-index record builder,
the ticker/CIK registry resolver, the 8-K item extractor, the primary-document
selector, the HTTP status-code policy, and the per-filing enrichment loop.

Strings are modelled as Lean `String` (a packed `List Char`); Python regular
expressions are specialised to the concrete patterns appearing in the source
and implemented as recursive character-list functions with the exact
leftmost-match / greedy-with-backtracking semantics of those patterns.
Python's `\s`, `\d`, `str.strip`, `str.upper`, `str.lower` and
`re.IGNORECASE` are modelled at their ASCII meaning (the archive's wire
formats are ASCII).  Python's `float` sort key is modelled by exact
decimal-value comparison (numerically equal keys stay in stable order, as
with Python's stable sort; rounding a decimal literal to a float is a
monotone map, so a list sorted by exact value is sorted by float value).
-/

namespace SecNotifications

/-- ASCII model of Python's `\s` character class and of the characters
`str.strip` removes. -/
def isPySpace (c : Char) : Bool :=
  c = ' ' || c = '\t' || c = '\n' || c = '\x0d' || c = '\x0b' || c = '\x0c'

/-- ASCII decimal digit, the model of Python's `\d`. -/
def isDigitA (c : Char) : Bool :=
  '0' ≤ c && c ≤ '9'

/-- The separator class `[:\s\-—]` that follows the item number in the
item-heading pattern of `extract_8k_items`. -/
def isSepC (c : Char) : Bool :=
  c = ':' || isPySpace c || c = '-' || c = '—'

/-- Not a newline: the character class `[^\n]` of the optional trailing
group in the item-heading pattern. -/
def notNL (c : Char) : Bool :=
  c ≠ '\n'

/-- Python `str.split(sep)` for a one-character separator: keeps empty
pieces, always returns at least one piece. -/
def pySplitC (sep : Char) : List Char → List (List Char)
  | [] => [[]]
  | c :: rest =>
    if c = sep then [] :: pySplitC sep rest
    else
      match pySplitC sep rest with
      | [] => [[c]]
      | h :: t => (c :: h) :: t

/-- Python `str.strip()` (ASCII whitespace model): drop leading whitespace. -/
def lstripL (l : List Char) : List Char := l.dropWhile isPySpace

/-- Python `str.strip()` (ASCII whitespace model): drop trailing whitespace. -/
def rstripL (l : List Char) : List Char :=
  (l.reverse.dropWhile isPySpace).reverse

/-- Python `str.strip()` on a character list. -/
def pyStripL (l : List Char) : List Char := rstripL (lstripL l)

/-- Python `str.strip()` on a string. -/
def pyStripS (s : String) : String := ⟨pyStripL s.data⟩

/-- Python `str.upper()` (ASCII model). -/
def pyUpperS (s : String) : String := ⟨s.data.map Char.toUpper⟩

/-- Python `str.lower()` (ASCII model). -/
def pyLowerS (s : String) : String := ⟨s.data.map Char.toLower⟩

/-- Stable insertion of `x` into `l`: `x` goes before the first element `y`
with `le x y` (so among equal keys, the newly inserted, originally-later
element ends up after earlier ones — the order produced by Python's stable
sort). -/
def insB (le : α → α → Bool) (x : α) : List α → List α
  | [] => [x]
  | y :: ys => if le x y then x :: y :: ys else y :: insB le x ys

/-- Stable insertion sort; for a total preorder `le` this computes the same
list as Python's stable `list.sort`. -/
def sortB (le : α → α → Bool) : List α → List α
  | [] => []
  | x :: xs => insB le x (sortB le xs)

/-- Locate the first `'>'` in `l`; on success return the characters strictly
before it and the characters strictly after it. -/
def splitAtGt : List Char → Option (List Char × List Char)
  | [] => none
  | c :: r =>
    if c = '>' then some ([], r)
    else
      match splitAtGt r with
      | some (b, a) => some (c :: b, a)
      | none => none

/-- Fuelled worker for `stripTags`; `fuel ≥ length` always suffices (every
recursive call shortens the list), and the fuel makes the recursion
structural so that concrete inputs evaluate by kernel reduction. -/
def stripTagsF : Nat → List Char → List Char
  | 0, _ => []
  | _ + 1, [] => []
  | fuel + 1, c :: rest =>
    if c = '<' then
      match splitAtGt rest with
      | some (b, a) =>
        if b = [] then '<' :: stripTagsF fuel rest
        else ' ' :: stripTagsF fuel a
      | none => '<' :: stripTagsF fuel rest
    else c :: stripTagsF fuel rest

/-- `re.sub(r"<[^>]+>", " ", context)`: replace every complete tag — a `'<'`
whose first following `'>'` is at distance at least two — by a single space,
scanning left to right over non-overlapping matches. -/
def stripTags (l : List Char) : List Char := stripTagsF l.length l

/-- `re.sub(r"<[^>]*$", " ", context)`: replace the leftmost `'<'` that has
no `'>'` anywhere after it, together with everything after it, by a single
space. -/
def stripTrailing : List Char → List Char
  | [] => []
  | c :: rest =>
    if c = '<' then
      if rest.contains '>' then c :: stripTrailing rest else [' ']
    else c :: stripTrailing rest

/-- Fuelled worker for `collapseWs` (structural in the fuel; `fuel ≥ length`
suffices). -/
def collapseWsF : Nat → List Char → List Char
  | 0, _ => []
  | _ + 1, [] => []
  | fuel + 1, c :: rest =>
    if isPySpace c then ' ' :: collapseWsF fuel (rest.dropWhile isPySpace)
    else c :: collapseWsF fuel rest

/-- `re.sub(r"\s+", " ", context)`: collapse every maximal whitespace run to
a single space. -/
def collapseWs (l : List Char) : List Char := collapseWsF l.length l

/-- The context post-processing of `extract_8k_items` applied to the raw
500-character window: strip complete tags, strip a trailing cut-off tag
fragment, normalise whitespace, and truncate to 300 characters plus an
ellipsis. -/
def ctxProcess (w : List Char) : List Char :=
  let t := pyStripL (collapseWs (stripTrailing (stripTags w)))
  if 300 < t.length then t.take 300 ++ ('.' :: '.' :: '.' :: []) else t

/-- One attempt of the compiled pattern
`item\s*(\d+\.\d+)[:\s\-—]+([^\n]+)?` (case-insensitive) anchored at the
head of `l`.  Returns the captured item number and the characters after the
match end.  Greedy/backtracking analysis of the pattern: `\s*` and each
`\d+` are effectively possessive here because the character that must follow
each of them can never belong to the preceding class, and the optional final
group `([^\n]+)?` extends to the end of the line whenever it is non-empty. -/
def matchItemAt (l : List Char) : Option (List Char × List Char) :=
  match l with
  | c0 :: c1 :: c2 :: c3 :: rest =>
    if c0.toLower = 'i' ∧ c1.toLower = 't' ∧ c2.toLower = 'e' ∧ c3.toLower = 'm' then
      let r1 := rest.dropWhile isPySpace
      let d1 := r1.takeWhile isDigitA
      if d1 = [] then none
      else
        match r1.dropWhile isDigitA with
        | '.' :: r2 =>
          let d2 := r2.takeWhile isDigitA
          if d2 = [] then none
          else
            let r3 := r2.dropWhile isDigitA
            if r3.takeWhile isSepC = [] then none
            else
              some (d1 ++ '.' :: d2, (r3.dropWhile isSepC).dropWhile notNL)
        | _ => none
    else none
  | _ => none

/-- Fuelled worker for `scanItems` (structural in the fuel; `fuel ≥ length`
suffices since a successful match is never empty). -/
def scanItemsF : Nat → List Char → List (List Char × List Char)
  | 0, _ => []
  | _ + 1, [] => []
  | fuel + 1, c :: rest =>
    match matchItemAt (c :: rest) with
    | some (n, rem) => (n, rem) :: scanItemsF fuel rem
    | none => scanItemsF fuel rest

/-- `item_pattern.finditer(content)`: scan left to right; record each match
and resume at its end, otherwise advance one character. -/
def scanItems (l : List Char) : List (List Char × List Char) := scanItemsF l.length l

/-- The dataclass `FilingItem`: one extracted 8-K item disclosure. -/
structure FilingItem where
  item : String
  description : String
  context : String
  is_priority : Bool
deriving DecidableEq, Repr

/-- The module-level dict `ITEM_DESCRIPTIONS` (insertion order preserved). -/
def ITEM_DESCRIPTIONS : List (String × String) :=
  [("1.01", "Entry into Material Agreement"),
   ("1.02", "Termination of Material Agreement"),
   ("1.03", "Bankruptcy or Receivership"),
   ("2.01", "Acquisition/Disposition of Assets"),
   ("2.02", "Results of Operations (Earnings)"),
   ("2.03", "Creation of Direct Financial Obligation"),
   ("2.04", "Triggering Events (Acceleration)"),
   ("2.05", "Exit/Disposal Activities (Restructuring)"),
   ("2.06", "Material Impairments"),
   ("3.01", "Delisting or Transfer Notice"),
   ("3.02", "Unregistered Sales of Equity"),
   ("3.03", "Material Modification of Rights"),
   ("4.01", "Change in Accountant"),
   ("4.02", "Non-Reliance on Financial Statements"),
   ("5.01", "Change in Control"),
   ("5.02", "Departure/Appointment of Directors or Officers"),
   ("5.03", "Amendments to Articles/Bylaws"),
   ("5.04", "Temporary Suspension of Trading"),
   ("5.05", "Amendments to Code of Ethics"),
   ("5.06", "Change in Shell Company Status"),
   ("5.07", "Shareholder Vote Submission"),
   ("5.08", "Shareholder Nominations"),
   ("7.01", "Regulation FD Disclosure"),
   ("8.01", "Other Events"),
   ("9.01", "Financial Statements and Exhibits")]

/-- The module-level set `PRIORITY_ITEMS`. -/
def PRIORITY_ITEMS : List String := ["5.02", "5.01", "1.01", "2.05"]

/-- `ITEM_DESCRIPTIONS.get(item_num, "Other Item")`. -/
def descOf (num : String) : String :=
  match ITEM_DESCRIPTIONS.find? (fun p => p.1 == num) with
  | some p => p.2
  | none => "Other Item"

/-- Build one `FilingItem` from a captured item number and the text
following the match end: take the 500-character raw window and run the
context post-processing; look up description and priority flag. -/
def mkFilingItem (numL : List Char) (suffix : List Char) : FilingItem :=
  let num : String := ⟨numL⟩
  { item := num
    description := descOf num
    context := ⟨ctxProcess (suffix.take 500)⟩
    is_priority := PRIORITY_ITEMS.contains num }

/-- The main loop of `extract_8k_items`: process matches in textual order,
skipping item numbers already seen (first match wins). -/
def extractLoop : List (List Char × List Char) → List String → List FilingItem
  | [], _ => []
  | (numL, suffix) :: rest, seen =>
    if (⟨numL⟩ : String) ∈ seen then extractLoop rest seen
    else mkFilingItem numL suffix :: extractLoop rest ((⟨numL⟩ : String) :: seen)

/-- The exact decimal value of a dotted-decimal item number, as a fraction
`(numerator, denominator)` over ℕ.  This embeds the sort key
`float(x.item)`: rounding a decimal literal to a float is monotone, so a
list sorted by exact decimal value is also sorted by float value (and
Python's floats represent these short decimals faithfully). -/
def itemKey (s : String) : Nat × Nat :=
  let ip := s.data.takeWhile isDigitA
  let fp := ((s.data.dropWhile isDigitA).drop 1).takeWhile isDigitA
  let dv : List Char → Nat := fun ds => ds.foldl (fun acc c => 10 * acc + (c.toNat - 48)) 0
  (dv ip * 10 ^ fp.length + dv fp, 10 ^ fp.length)

/-- Comparison of two item numbers by their float value (exact fraction
comparison by cross-multiplication). -/
def itemLeB (a b : String) : Bool :=
  (itemKey a).1 * (itemKey b).2 ≤ (itemKey b).1 * (itemKey a).2

/-- The sort comparison `key=lambda x: float(x.item)` lifted to
`FilingItem`. -/
def filingLeB (a b : FilingItem) : Bool := itemLeB a.item b.item

/-- `extract_8k_items(content)`: scan for item headings, deduplicate by item
number keeping the first textual occurrence, build the bounded context
snippet for each, and sort ascending by numeric item value (stable). -/
def extract_8k_items (content : String) : List FilingItem :=
  if content = "" then []
  else sortB filingLeB (extractLoop (scanItems content.data) [])

/-- The dataclass `Filing`: one parsed daily-index record, with the
post-filter enrichment fields `ticker` and `items`. -/
structure Filing where
  cik : String
  company_name : String
  form_type : String
  date_filed : String
  filename : String
  accession : String
  url : String
  raw_url : String
  ticker : String := "???"
  items : Option (List FilingItem) := none
deriving DecidableEq, Repr

/-- `SEC_ARCHIVES_BASE`. -/
def SEC_ARCHIVES_BASE : String := "https://www.sec.gov/Archives"

/-- `accession.replace(".txt", "")` specialised to its use on the last path
segment: remove every (non-overlapping, leftmost-first) occurrence of
`".txt"`, not only a suffix. -/
def removeTxt : List Char → List Char
  | '.' :: 't' :: 'x' :: 't' :: rest => removeTxt rest
  | c :: rest => c :: removeTxt rest
  | [] => []

/-- One line of the master index body: emit a `Filing` iff the line
contains `'|'` and splits into at least five pipe-delimited fields. -/
def parseLine (lineL : List Char) : Option Filing :=
  if lineL.contains '|' then
    match pySplitC '|' lineL with
    | p0 :: p1 :: p2 :: p3 :: p4 :: _ =>
      let cik : String := ⟨p0⟩
      let filename : String := ⟨p4⟩
      let accession : String := ⟨removeTxt ((pySplitC '/' p4).getLastD [])⟩
      let folder_url : String :=
        SEC_ARCHIVES_BASE ++ "/edgar/data/" ++ cik ++ "/" ++
          (⟨accession.data.filter (fun c => c ≠ '-')⟩ : String) ++ "/"
      some
        { cik := cik
          company_name := ⟨p1⟩
          form_type := ⟨p2⟩
          date_filed := ⟨p3⟩
          filename := filename
          accession := accession
          url := folder_url ++ accession ++ "-index.html"
          raw_url := SEC_ARCHIVES_BASE ++ "/" ++ filename
          ticker := "???"
          items := none }
    | _ => none
  else none

/-- The parsing half of `download_and_parse_index`: split the body into
lines and parse each candidate record line.  (Python `splitlines` is
modelled as splitting on `'\n'`; lines that would differ — empty pieces
around `'\r'` — contain no `'|'` and are skipped either way.) -/
def parseIndexBody (text : String) : List Filing :=
  (pySplitC '\n' text.data).filterMap parseLine

/-- Case-insensitive literal prefix test: `pat` is given in lowercase and is
compared against the lowercased input. -/
def ciPrefix : List Char → List Char → Bool
  | [], _ => true
  | _ :: _, [] => false
  | p :: ps, c :: cs => p = c.toLower && ciPrefix ps cs

/-- Fuelled worker for `splitDocs` (structural in the fuel; `fuel ≥ length`
suffices since the marker is 11 characters long). -/
def splitDocsF : Nat → List Char → List (List Char)
  | 0, _ => [[]]
  | _ + 1, [] => [[]]
  | fuel + 1, c :: rest =>
    if ciPrefix "</document>".data (c :: rest) then
      [] :: splitDocsF fuel ((c :: rest).drop 11)
    else
      match splitDocsF fuel rest with
      | [] => [[c]]
      | h :: t => (c :: h) :: t

/-- `re.split(r"</DOCUMENT>", submission_text, flags=re.IGNORECASE)`: the
pieces between non-overlapping, leftmost-first occurrences of the closing
document marker. -/
def splitDocs (l : List Char) : List (List Char) := splitDocsF l.length l

/-- The backtracking case of `\s*([^\n<]+)` when the character after the
greedy whitespace run cannot start the group: the group is re-anchored at
the last non-newline whitespace character, and (because every later
whitespace character is a newline and the next non-whitespace character is
absent or `'<'`) captures exactly that one character. -/
def backtrackWs (w : List Char) : Option (List Char) :=
  match (w.reverse.dropWhile (fun c => c = '\n')) with
  | c :: _ => some [c]
  | [] => none

/-- The suffix `\s*([^\n<]+)` of the `<TYPE>`/`<FILENAME>` patterns, with
Python's greedy-then-backtrack semantics, applied right after the literal
tag.  Returns the captured group. -/
def capWsGroup (rest : List Char) : Option (List Char) :=
  match rest.dropWhile isPySpace with
  | c :: cs =>
    if c = '<' then backtrackWs (rest.takeWhile isPySpace)
    else some ((c :: cs).takeWhile (fun x => x ≠ '\n' && x ≠ '<'))
  | [] => backtrackWs (rest.takeWhile isPySpace)

/-- The suffix `\s*(\d+)` of the `<SEQUENCE>` pattern: whitespace characters
cannot be digits, so no backtracking applies. -/
def capWsDigits (rest : List Char) : Option (List Char) :=
  let ds := (rest.dropWhile isPySpace).takeWhile isDigitA
  if ds = [] then none else some ds

/-- `re.search` for a pattern `LITERAL` + capture-suffix under
`re.IGNORECASE`: try every start offset left to right, returning the first
successful capture. -/
def searchCap (tagLow : List Char) (cap : List Char → Option (List Char)) :
    List Char → Option (List Char)
  | [] => none
  | c :: rest =>
    if ciPrefix tagLow (c :: rest) then
      match cap ((c :: rest).drop tagLow.length) with
      | some g => some g
      | none => searchCap tagLow cap rest
    else searchCap tagLow cap rest

/-- Decimal digits to ℕ (Python `int` on a `\d+` capture). -/
def digitsToNat (ds : List Char) : Nat :=
  ds.foldl (fun acc c => 10 * acc + (c.toNat - 48)) 0

/-- `form_type.upper().replace("/A", "")`: remove every occurrence of
`"/A"`. -/
def removeSlashA : List Char → List Char
  | '/' :: 'A' :: rest => removeSlashA rest
  | c :: rest => c :: removeSlashA rest
  | [] => []

/-- One candidate row of `extract_primary_document_filename`. -/
structure DocCand where
  dtype : String
  fname : String
  seq : Nat
  isHtml : Bool
deriving DecidableEq, Repr

/-- Extract the candidate of one `<DOCUMENT>` block: first `<TYPE>` capture
and first `<FILENAME>` capture (both required), optional first `<SEQUENCE>`
capture defaulting to 9999. -/
def candOfBlock (block : List Char) : Option DocCand :=
  match searchCap "<type>".data capWsGroup block,
        searchCap "<filename>".data capWsGroup block with
  | some tg, some fg =>
    let fname := pyStripS ⟨fg⟩
    let lf := pyLowerS fname
    some
      { dtype := pyUpperS (pyStripS ⟨tg⟩)
        fname := fname
        seq :=
          match searchCap "<sequence>".data capWsDigits block with
          | some ds => digitsToNat ds
          | none => 9999
        isHtml := ".htm".data.isSuffixOf lf.data || ".html".data.isSuffixOf lf.data }
  | _, _ => none

/-- Membership in the `desired` set: the upper-cased requested form type,
plus (when that type carries an amendment suffix) the type with every
`"/A"` removed. -/
def typeMatches (ftU : String) (dtype : String) : Bool :=
  dtype == ftU || ("/A".data.isSuffixOf ftU.data && dtype == (⟨removeSlashA ftU.data⟩ : String))

/-- The sort key tuple `(type_match, html_rank, seq)` of the selector. -/
def rankOf (ftU : String) (c : DocCand) : Nat × Nat × Nat :=
  ((if typeMatches ftU c.dtype then 0 else 1), (if c.isHtml then 0 else 1), c.seq)

/-- Lexicographic comparison of rank tuples. -/
def lex3Le : Nat × Nat × Nat → Nat × Nat × Nat → Bool
  | (a1, a2, a3), (b1, b2, b3) =>
    decide (a1 < b1) || (decide (a1 = b1) &&
      (decide (a2 < b2) || (decide (a2 = b2) && decide (a3 ≤ b3))))

/-- Rank comparison of two candidates for the requested (upper-cased) form
type. -/
def rankLeB (ftU : String) (a b : DocCand) : Bool :=
  lex3Le (rankOf ftU a) (rankOf ftU b)

/-- The candidate list of a submission text. -/
def docCandidates (submission_text : String) : List DocCand :=
  (splitDocs submission_text.data).filterMap candOfBlock

/-- `extract_primary_document_filename(submission_text, form_type)`. -/
def extract_primary_document_filename (submission_text : String) (form_type : String) :
    Option String :=
  if submission_text = "" then none
  else
    match sortB (rankLeB (pyUpperS form_type)) (docCandidates submission_text) with
    | [] => none
    | c :: _ => some c.fname

/-- Bool substring test: `pat in s` for Python strings. -/
def hasSubL (pat : List Char) : List Char → Bool
  | [] => pat.isEmpty
  | c :: rest => pat.isPrefixOf (c :: rest) || hasSubL pat rest

/-- The per-filing enrichment step of `main` (the body of the
`for i, f in enumerate(matches, ...)` loop), with the network modelled as a
function `fetch` from URL to response text.  Only filings whose form-type
label contains `"8-K"` are fetched, extracted and re-linked; all others
just get an empty item list. -/
def enrichFiling (fetch : String → String) (f : Filing) : Filing :=
  if hasSubL "8-K".data f.form_type.data then
    let content := fetch f.raw_url
    let folder_url : String :=
      SEC_ARCHIVES_BASE ++ "/edgar/data/" ++ f.cik ++ "/" ++
        (⟨f.accession.data.filter (fun c => c ≠ '-')⟩ : String) ++ "/"
    let index_url := folder_url ++ f.accession ++ "-index.html"
    { f with
      items := some (extract_8k_items content)
      url :=
        match extract_primary_document_filename content f.form_type with
        | some fn => folder_url ++ fn
        | none => index_url }
  else { f with items := some [] }

/-- The error taxonomy's `TransportError`, carrying the offending HTTP
status (`requests.HTTPError` raised by `raise_for_status`). -/
inductive TransportErr where
  | httpError (status : Nat)
deriving DecidableEq, Repr

/-- `resp.raise_for_status()`: an HTTPError for every 4xx/5xx status. -/
def raiseForStatus (status : Nat) : Except TransportErr Unit :=
  if 400 ≤ status ∧ status < 600 then Except.error (TransportErr.httpError status)
  else Except.ok ()

/-- `download_and_parse_index` with the network response modelled as a
status code plus body: 403/404 give an empty record list, any other error
status raises, otherwise the body is parsed. -/
def download_and_parse_index (status : Nat) (body : String) :
    Except TransportErr (List Filing) :=
  if status = 403 ∨ status = 404 then Except.ok []
  else
    match raiseForStatus status with
    | Except.error e => Except.error e
    | Except.ok _ => Except.ok (parseIndexBody body)

/-- `fetch_filing_content` with the network response modelled as a status
code plus body: 403/404 give empty text, any other error status raises. -/
def fetch_filing_content (status : Nat) (body : String) : Except TransportErr String :=
  if status = 403 ∨ status = 404 then Except.ok ""
  else
    match raiseForStatus status with
    | Except.error e => Except.error e
    | Except.ok _ => Except.ok body

/-- One entry of the bulk `company_tickers.json` feed, after Python's
`str(...)` coercion of the two fields read by the resolver. -/
structure TickerEntry where
  ticker : String
  cik_str : String
deriving DecidableEq, Repr

/-- First value stored under key `k` in an association list. -/
def lookupA (m : List (String × String)) (k : String) : Option String :=
  match m with
  | [] => none
  | (k', v) :: rest => if k' = k then some v else lookupA rest k

/-- Python dict assignment `m[k] = v`: overwrite the binding of `k` in place
if present, else append. -/
def insA (m : List (String × String)) (k v : String) : List (String × String) :=
  match m with
  | [] => [(k, v)]
  | (k', v') :: rest => if k' = k then (k, v) :: rest else (k', v') :: insA rest k v

/-- Normalisation of one feed entry's ticker: `str(entry.get("ticker", "")).upper()`
— upper-cased but NOT trimmed. -/
def normTicker (e : TickerEntry) : String := pyUpperS e.ticker

/-- Normalisation of one feed entry's identifier:
`str(entry.get("cik_str", "")).strip()`. -/
def normCik (e : TickerEntry) : String := pyStripS e.cik_str

/-- One iteration of the resolver loop: insert the normalised pair into both
directions iff both normalised fields are non-empty. -/
def tickerStep (maps : List (String × String) × List (String × String))
    (e : TickerEntry) : List (String × String) × List (String × String) :=
  if normTicker e ≠ "" ∧ normCik e ≠ "" then
    (insA maps.1 (normTicker e) (normCik e), insA maps.2 (normCik e) (normTicker e))
  else maps

/-- `get_ticker_to_cik_mapping`: fold the bulk feed (in iteration order)
into the ticker→CIK and CIK→ticker dictionaries. -/
def get_ticker_to_cik_mapping (feed : List TickerEntry) :
    List (String × String) × List (String × String) :=
  feed.foldl tickerStep ([], [])

/-! ## Predicates used by the claims, and concrete inputs -/

/-- No residual tag material: every `'<'` in the list is either immediately
followed by `'>'` (the inert empty pair `<>`, which neither stripping regex
can match) or has no `'>'` anywhere after it. -/
def Angle (l : List Char) : Prop :=
  ∀ pre post, l = pre ++ '<' :: post → post.head? = some '>' ∨ '>' ∉ post

/-- Some `'<'` is followed (anywhere later) by a `'>'`. -/
def hasAnglePair (l : List Char) : Bool :=
  ((l.dropWhile (fun c => c ≠ '<')).drop 1).contains '>'

/-- The lexical shape `\d+\.\d+` of a captured item number: one or more
digits, a dot, one or more digits, and nothing else. -/
def isItemShapeL (l : List Char) : Bool :=
  decide (l.takeWhile isDigitA ≠ []) &&
    match l.dropWhile isDigitA with
    | '.' :: r2 => decide (r2 ≠ []) && r2.all isDigitA
    | _ => false

/-- `isItemShapeL` on a string. -/
def isItemShape (s : String) : Bool := isItemShapeL s.data

/-- Last `/`-separated segment of a path string. -/
def lastSegment (s : String) : List Char :=
  (pySplitC '/' s.data).getLastD []

/-- Modelled from the spec (for comparison with the code's `removeTxt`):
"accession identifier = last path segment of the record's raw relative
path, with a `.txt` suffix stripped" — strip one trailing `".txt"` when
present. -/
def stripTxtSuffix (l : List Char) : List Char :=
  if ".txt".data.isSuffixOf l then l.take (l.length - 4) else l

/-- The folder URL recomputed by the enrichment loop of `main`. -/
def folderUrlOf (f : Filing) : String :=
  SEC_ARCHIVES_BASE ++ "/edgar/data/" ++ f.cik ++ "/" ++
    (⟨f.accession.data.filter (fun c => c ≠ '-')⟩ : String) ++ "/"

/-- The item heading of the spec's worked example. -/
def c2lit : String := "Item 5.02: Departure of Director"

/-- 500 filler characters. -/
def post500 : String := ⟨List.replicate 500 'a'⟩

/-- A prefix whose item-heading match swallows the rest of its line. -/
def c2pre : String := "item 1.01: x "

/-- A bundle that contains `c2lit` followed by 500 characters, yet yields no
item 5.02: the whole text is one line, so the match for item 1.01 consumes
it entirely. -/
def ce2 : String := c2pre ++ c2lit ++ post500

/-- A bundle whose 1.01 context snippet retains the empty pair `<>`. -/
def ce3 : String := "Item 1.01: x\na<>b"

/-- The single disclosure extracted from `ce3`. -/
def dEx3 : FilingItem :=
  { item := "1.01", description := "Entry into Material Agreement",
    context := "a<>b", is_priority := true }

/-- A bundle with duplicate and out-of-order item headings. -/
def ce1 : String := "Item 9.01- foo\nItem 2.02 bar\nitem 2.02: again\nItem 10.3—dash"

/-- The first extracted disclosure of `ce1` (item 2.02, first textual
occurrence on the second line). -/
def dEx1 : FilingItem :=
  { item := "2.02", description := "Results of Operations (Earnings)",
    context := "item 2.02: again Item 10.3—dash", is_priority := false }

/-- The spec's first selector example: an exhibit block (sequence 2) and an
8-K block (sequence 1). -/
def bundle1 : String :=
  "<DOCUMENT>\n<TYPE>EX-10.1\n<SEQUENCE>2\n<FILENAME>ex.htm\nstuff</DOCUMENT>\n" ++
  "<DOCUMENT>\n<TYPE>8-K\n<SEQUENCE>1\n<FILENAME>form8k.htm\nmore</DOCUMENT>"

/-- The spec's second selector example: for requested type `8-K/A`, a block
of type `8-K` (despite its larger sequence number) beats a non-matching
block. -/
def bundle2 : String :=
  "<DOCUMENT>\n<TYPE>XYZ\n<FILENAME>z.htm\n<SEQUENCE>1\n</DOCUMENT>" ++
  "<DOCUMENT>\n<TYPE>8-K\n<FILENAME>a.htm\n<SEQUENCE>2\n</DOCUMENT>"

/-- The spec's worked index line. -/
def appleLine : String :=
  "0000320193|Apple Inc|8-K|2024-05-02|edgar/data/320193/0000320193-24-000050.txt"

/-- An index line whose last path segment contains `".txt"` in the middle. -/
def txtLine : String := "1|A|8-K|2024-01-01|a/b.txtc.txt"

/-- A matched filing whose form-type label does not contain `"8-K"`. -/
def fDef14A : Filing :=
  { cik := "789019", company_name := "Microsoft Corp", form_type := "DEF 14A",
    date_filed := "2024-01-01", filename := "edgar/data/789019/0000789019-24-000001.txt",
    accession := "0000789019-24-000001",
    url := "https://www.sec.gov/Archives/edgar/data/789019/000078901924000001/0000789019-24-000001-index.html",
    raw_url := "https://www.sec.gov/Archives/edgar/data/789019/0000789019-24-000001.txt",
    ticker := "MSFT", items := none }

/-- An 8-K filing for the amended-claim witness. -/
def f8K : Filing :=
  { cik := "320193", company_name := "Apple Inc", form_type := "8-K",
    date_filed := "2024-05-02", filename := "edgar/data/320193/0000320193-24-000050.txt",
    accession := "0000320193-24-000050",
    url := "https://www.sec.gov/Archives/edgar/data/320193/000032019324000050/0000320193-24-000050-index.html",
    raw_url := "https://www.sec.gov/Archives/edgar/data/320193/0000320193-24-000050.txt",
    ticker := "AAPL", items := none }

/-- A network oracle returning a fixed non-trivial 8-K body for every URL. -/
def fetchEx : String → String := fun _ => "Item 5.02: hello\nofficer departed"

/-- A bulk feed with a duplicate ticker (the second entry overwrites the
first) and a distinct surviving entry. -/
def feed7 : List TickerEntry := [⟨"a", "1"⟩, ⟨"a", "2"⟩, ⟨"b", "3"⟩]

/-- A bulk feed entry whose ticker carries surrounding whitespace. -/
def feed8 : List TickerEntry := [⟨" aapl ", " 1 "⟩]

/-- A bundle with a single block carrying no `<SEQUENCE>` descriptor. -/
def bundle3 : String := "<DOCUMENT>\n<TYPE>8-K\n<FILENAME>x.htm\n</DOCUMENT>"

/-- The record parsed from `appleLine`. -/
def fApple : Filing :=
  { cik := "0000320193", company_name := "Apple Inc", form_type := "8-K",
    date_filed := "2024-05-02", filename := "edgar/data/320193/0000320193-24-000050.txt",
    accession := "0000320193-24-000050",
    url := "https://www.sec.gov/Archives/edgar/data/0000320193/000032019324000050/0000320193-24-000050-index.html",
    raw_url := "https://www.sec.gov/Archives/edgar/data/320193/0000320193-24-000050.txt",
    ticker := "???", items := none }

/-! ## Termination and fuel lemmas -/

theorem dropWhile_len_le (p : Char → Bool) (l : List Char) :
    (l.dropWhile p).length ≤ l.length :=
  (List.dropWhile_sublist p).length_le

theorem takeWhile_len_le (p : Char → Bool) (l : List Char) :
    (l.takeWhile p).length ≤ l.length :=
  (List.takeWhile_sublist p).length_le

theorem splitAtGt_shrink : ∀ l b a, splitAtGt l = some (b, a) → a.length < l.length := by
  intro l
  induction l with
  | nil => intro b a h; simp [splitAtGt] at h
  | cons c r ih =>
    intro b a h
    rw [splitAtGt] at h
    by_cases hc : c = '>'
    · rw [if_pos hc] at h
      cases h
      simp
    · rw [if_neg hc] at h
      cases hr : splitAtGt r with
      | none => rw [hr] at h; cases h
      | some p =>
        obtain ⟨b', a'⟩ := p
        rw [hr] at h
        simp only [Option.some.injEq, Prod.mk.injEq] at h
        obtain ⟨hb, ha⟩ := h
        have := ih b' a' hr
        rw [← ha]
        simp only [List.length_cons]
        omega

theorem stripTagsF_fuel :
    ∀ (f1 f2 : Nat) (l : List Char), l.length ≤ f1 → l.length ≤ f2 →
      stripTagsF f1 l = stripTagsF f2 l := by
  intro f1
  induction f1 with
  | zero =>
    intro f2 l h1 _
    have : l = [] := List.eq_nil_of_length_eq_zero (Nat.le_zero.mp h1)
    subst this
    cases f2 <;> rfl
  | succ f1 ih =>
    intro f2 l h1 h2
    cases l with
    | nil => cases f2 <;> rfl
    | cons c rest =>
      cases f2 with
      | zero => simp [List.length_cons] at h2
      | succ f2 =>
        simp only [List.length_cons] at h1 h2
        simp only [stripTagsF]
        by_cases hc : c = '<'
        · simp only [if_pos hc]
          cases hr : splitAtGt rest with
          | none =>
            rw [ih f2 rest (by omega) (by omega)]
          | some p =>
            obtain ⟨b, a⟩ := p
            by_cases hb : b = []
            · simp only [if_pos hb]
              rw [ih f2 rest (by omega) (by omega)]
            · have hlt := splitAtGt_shrink rest b a hr
              simp only [if_neg hb]
              rw [ih f2 a (by omega) (by omega)]
        · simp only [if_neg hc]
          rw [ih f2 rest (by omega) (by omega)]

theorem collapseWsF_fuel :
    ∀ (f1 f2 : Nat) (l : List Char), l.length ≤ f1 → l.length ≤ f2 →
      collapseWsF f1 l = collapseWsF f2 l := by
  intro f1
  induction f1 with
  | zero =>
    intro f2 l h1 _
    have : l = [] := List.eq_nil_of_length_eq_zero (Nat.le_zero.mp h1)
    subst this
    cases f2 <;> rfl
  | succ f1 ih =>
    intro f2 l h1 h2
    cases l with
    | nil => cases f2 <;> rfl
    | cons c rest =>
      cases f2 with
      | zero => simp [List.length_cons] at h2
      | succ f2 =>
        simp only [List.length_cons] at h1 h2
        simp only [collapseWsF]
        have hdw := dropWhile_len_le isPySpace rest
        by_cases hc : isPySpace c = true
        · simp only [hc, if_true]
          rw [ih f2 (rest.dropWhile isPySpace) (by omega) (by omega)]
        · simp only [hc, Bool.false_eq_true, if_false]
          rw [ih f2 rest (by omega) (by omega)]

theorem matchItemAt_shrink :
    ∀ l n rem, matchItemAt l = some (n, rem) → rem.length < l.length := by
  intro l n rem h
  match l with
  | [] => simp [matchItemAt] at h
  | [c0] => simp [matchItemAt] at h
  | [c0, c1] => simp [matchItemAt] at h
  | [c0, c1, c2] => simp [matchItemAt] at h
  | c0 :: c1 :: c2 :: c3 :: rest =>
    simp only [matchItemAt] at h
    split at h
    · split at h
      · simp at h
      · split at h
        case h_1 r2 heq =>
          split at h
          · simp at h
          · split at h
            · simp at h
            · simp only [Option.some.injEq, Prod.mk.injEq] at h
              obtain ⟨-, hrem⟩ := h
              have h1 : ('.' :: r2).length ≤ (rest.dropWhile isPySpace).length := by
                rw [← heq]; exact dropWhile_len_le _ _
              have h2 := dropWhile_len_le isPySpace rest
              have h3 := dropWhile_len_le isDigitA r2
              have h4 := dropWhile_len_le isSepC (r2.dropWhile isDigitA)
              have h5 := dropWhile_len_le notNL ((r2.dropWhile isDigitA).dropWhile isSepC)
              rw [hrem] at h5
              simp only [List.length_cons] at h1 ⊢
              omega
        case h_2 => simp at h
    · simp at h

theorem scanItemsF_fuel :
    ∀ (f1 f2 : Nat) (l : List Char), l.length ≤ f1 → l.length ≤ f2 →
      scanItemsF f1 l = scanItemsF f2 l := by
  intro f1
  induction f1 with
  | zero =>
    intro f2 l h1 _
    have : l = [] := List.eq_nil_of_length_eq_zero (Nat.le_zero.mp h1)
    subst this
    cases f2 <;> rfl
  | succ f1 ih =>
    intro f2 l h1 h2
    cases l with
    | nil => cases f2 <;> rfl
    | cons c rest =>
      cases f2 with
      | zero => simp [List.length_cons] at h2
      | succ f2 =>
        simp only [List.length_cons] at h1 h2
        simp only [scanItemsF]
        cases hm : matchItemAt (c :: rest) with
        | some p =>
          obtain ⟨n, rem⟩ := p
          simp only [hm]
          have hlt := matchItemAt_shrink (c :: rest) n rem hm
          simp only [List.length_cons] at hlt
          rw [ih f2 rem (by omega) (by omega)]
        | none =>
          simp only [hm]
          rw [ih f2 rest (by omega) (by omega)]

theorem splitDocsF_fuel :
    ∀ (f1 f2 : Nat) (l : List Char), l.length ≤ f1 → l.length ≤ f2 →
      splitDocsF f1 l = splitDocsF f2 l := by
  intro f1
  induction f1 with
  | zero =>
    intro f2 l h1 _
    have : l = [] := List.eq_nil_of_length_eq_zero (Nat.le_zero.mp h1)
    subst this
    cases f2 <;> rfl
  | succ f1 ih =>
    intro f2 l h1 h2
    cases l with
    | nil => cases f2 <;> rfl
    | cons c rest =>
      cases f2 with
      | zero => simp [List.length_cons] at h2
      | succ f2 =>
        simp only [List.length_cons] at h1 h2
        simp only [splitDocsF]
        by_cases hc : ciPrefix "</document>".data (c :: rest) = true
        · simp only [hc, if_true]
          have hdrop : ((c :: rest).drop 11).length ≤ rest.length := by
            simp only [List.length_drop, List.length_cons]
            omega
          rw [ih f2 ((c :: rest).drop 11) (by omega) (by omega)]
        · simp only [hc, Bool.false_eq_true, if_false]
          rw [ih f2 rest (by omega) (by omega)]


/-! ## Lemmas about the stable sort -/

theorem insB_perm (le : α → α → Bool) (x : α) :
    ∀ l : List α, (insB le x l).Perm (x :: l) := by
  intro l
  induction l with
  | nil => simp [insB]
  | cons y ys ih =>
    rw [insB]
    by_cases h : le x y = true
    · rw [if_pos h]
    · rw [if_neg h]
      exact (ih.cons y).trans (List.Perm.swap x y ys)

theorem sortB_perm (le : α → α → Bool) : ∀ l : List α, (sortB le l).Perm l := by
  intro l
  induction l with
  | nil => simp [sortB]
  | cons x xs ih => exact (insB_perm le x (sortB le xs)).trans (ih.cons x)

theorem mem_sortB (le : α → α → Bool) (l : List α) (a : α) :
    a ∈ sortB le l ↔ a ∈ l :=
  (sortB_perm le l).mem_iff

theorem mem_insB (le : α → α → Bool) (x : α) (l : List α) (a : α) :
    a ∈ insB le x l ↔ a = x ∨ a ∈ l := by
  rw [(insB_perm le x l).mem_iff]
  simp

theorem insB_pairwise (le : α → α → Bool)
    (htot : ∀ a b, le a b = true ∨ le b a = true)
    (htrans : ∀ a b c, le a b = true → le b c = true → le a c = true)
    (x : α) : ∀ l : List α, List.Pairwise (fun a b => le a b = true) l →
      List.Pairwise (fun a b => le a b = true) (insB le x l) := by
  intro l
  induction l with
  | nil => intro _; simp [insB]
  | cons y ys ih =>
    intro h
    obtain ⟨hy, hys⟩ := List.pairwise_cons.mp h
    rw [insB]
    by_cases hxy : le x y = true
    · rw [if_pos hxy]
      refine List.pairwise_cons.mpr ⟨?_, h⟩
      intro z hz
      rcases List.mem_cons.mp hz with hz | hz
      · subst hz
        exact hxy
      · exact htrans x y z hxy (hy z hz)
    · rw [if_neg hxy]
      refine List.pairwise_cons.mpr ⟨?_, ih hys⟩
      intro z hz
      rcases (mem_insB le x ys z).mp hz with hz | hz
      · rcases htot x y with h1 | h1
        · exact absurd h1 hxy
        · rw [hz]
          exact h1
      · exact hy z hz

theorem sortB_pairwise (le : α → α → Bool)
    (htot : ∀ a b, le a b = true ∨ le b a = true)
    (htrans : ∀ a b c, le a b = true → le b c = true → le a c = true) :
    ∀ l : List α, List.Pairwise (fun a b => le a b = true) (sortB le l) := by
  intro l
  induction l with
  | nil => simp [sortB]
  | cons x xs ih => exact insB_pairwise le htot htrans x (sortB le xs) ih

/-! ## Lemmas about the item sort key and the rank tuple -/

theorem itemKey_den_pos (s : String) : 0 < (itemKey s).2 := by
  simp only [itemKey]
  exact pow_pos (by norm_num) _

theorem itemLeB_total (a b : String) : itemLeB a b = true ∨ itemLeB b a = true := by
  simp only [itemLeB, decide_eq_true_eq]
  exact Nat.le_total _ _

theorem itemLeB_trans (a b c : String) :
    itemLeB a b = true → itemLeB b c = true → itemLeB a c = true := by
  simp only [itemLeB, decide_eq_true_eq]
  intro h1 h2
  have hdb := itemKey_den_pos b
  refine Nat.le_of_mul_le_mul_right ?_ hdb
  calc (itemKey a).1 * (itemKey c).2 * (itemKey b).2
      = (itemKey a).1 * (itemKey b).2 * (itemKey c).2 := by ring
    _ ≤ (itemKey b).1 * (itemKey a).2 * (itemKey c).2 := Nat.mul_le_mul_right _ h1
    _ = (itemKey b).1 * (itemKey c).2 * (itemKey a).2 := by ring
    _ ≤ (itemKey c).1 * (itemKey b).2 * (itemKey a).2 := Nat.mul_le_mul_right _ h2
    _ = (itemKey c).1 * (itemKey a).2 * (itemKey b).2 := by ring

theorem lex3Le_refl (x : Nat × Nat × Nat) : lex3Le x x = true := by
  obtain ⟨a1, a2, a3⟩ := x
  simp [lex3Le]

theorem lex3Le_total (x y : Nat × Nat × Nat) : lex3Le x y = true ∨ lex3Le y x = true := by
  obtain ⟨a1, a2, a3⟩ := x
  obtain ⟨b1, b2, b3⟩ := y
  simp only [lex3Le, Bool.or_eq_true, Bool.and_eq_true, decide_eq_true_eq]
  omega

theorem lex3Le_trans (x y z : Nat × Nat × Nat) :
    lex3Le x y = true → lex3Le y z = true → lex3Le x z = true := by
  obtain ⟨a1, a2, a3⟩ := x
  obtain ⟨b1, b2, b3⟩ := y
  obtain ⟨c1, c2, c3⟩ := z
  simp only [lex3Le, Bool.or_eq_true, Bool.and_eq_true, decide_eq_true_eq]
  omega

theorem rankLeB_total (ftU : String) (a b : DocCand) :
    rankLeB ftU a b = true ∨ rankLeB ftU b a = true :=
  lex3Le_total _ _

theorem rankLeB_trans (ftU : String) (a b c : DocCand) :
    rankLeB ftU a b = true → rankLeB ftU b c = true → rankLeB ftU a c = true :=
  lex3Le_trans _ _ _

/-! ## Lemmas about the context window -/

theorem ctxProcess_len (w : List Char) :
    (ctxProcess w).length ≤ 300 ∨
      ((ctxProcess w).length = 303 ∧ (ctxProcess w).drop 300 = ['.', '.', '.']) := by
  rw [ctxProcess]
  split
  case isTrue h =>
    right
    constructor
    · simp only [List.length_append, List.length_take, List.length_cons, List.length_nil]
      omega
    · have h300 : (List.take 300 (pyStripL (collapseWs (stripTrailing (stripTags w))))).length
          = 300 := by
        simp only [List.length_take]
        omega
      nth_rewrite 1 [← h300]
      exact List.drop_left _ _
  case isFalse h =>
    left
    omega

theorem ctxProcess_len_le (w : List Char) : (ctxProcess w).length ≤ 303 := by
  rcases ctxProcess_len w with h | h
  · omega
  · omega

/-! ## Lemmas about the extraction loop -/

theorem extractLoop_mem_mk :
    ∀ (ms : List (List Char × List Char)) (seen : List String) (d : FilingItem),
      d ∈ extractLoop ms seen → ∃ m ∈ ms, d = mkFilingItem m.1 m.2 := by
  intro ms
  induction ms with
  | nil => intro seen d h; simp [extractLoop] at h
  | cons m rest ih =>
    intro seen d h
    obtain ⟨numL, suffix⟩ := m
    rw [extractLoop] at h
    split at h
    · obtain ⟨m', hm', hd⟩ := ih _ d h
      exact ⟨m', List.mem_cons_of_mem _ hm', hd⟩
    · rcases List.mem_cons.mp h with hd | hd
      · exact ⟨(numL, suffix), List.mem_cons_self _ _, hd⟩
      · obtain ⟨m', hm', hd'⟩ := ih _ d hd
        exact ⟨m', List.mem_cons_of_mem _ hm', hd'⟩

theorem extract_mem_mk (content : String) (d : FilingItem)
    (h : d ∈ extract_8k_items content) :
    ∃ m ∈ scanItems content.data, d = mkFilingItem m.1 m.2 := by
  rw [extract_8k_items] at h
  split at h
  · simp at h
  · exact extractLoop_mem_mk _ _ d ((mem_sortB _ _ d).mp h)

theorem scanItems_nil : scanItems [] = [] := rfl

theorem scanItems_eq_match (l n rem : List Char)
    (h : matchItemAt l = some (n, rem)) : scanItems l = (n, rem) :: scanItems rem := by
  cases l with
  | nil => rw [show matchItemAt [] = none from rfl] at h; cases h
  | cons c rest =>
    have hlt := matchItemAt_shrink (c :: rest) n rem h
    simp only [List.length_cons] at hlt
    rw [scanItems, scanItems, List.length_cons]
    simp only [scanItemsF, h]
    rw [scanItemsF_fuel rest.length rem.length rem (by omega) le_rfl]

theorem scanItems_eq_skip (c : Char) (rest : List Char)
    (h : matchItemAt (c :: rest) = none) : scanItems (c :: rest) = scanItems rest := by
  rw [scanItems, scanItems, List.length_cons]
  simp only [scanItemsF, h]

theorem extractLoop_item_notin :
    ∀ (ms : List (List Char × List Char)) (seen : List String) (d : FilingItem),
      d ∈ extractLoop ms seen → d.item ∉ seen := by
  intro ms
  induction ms with
  | nil => intro seen d h; simp [extractLoop] at h
  | cons m rest ih =>
    intro seen d h
    obtain ⟨numL, suffix⟩ := m
    rw [extractLoop] at h
    split at h
    · exact ih seen d h
    · rcases List.mem_cons.mp h with hd | hd
      · subst hd
        assumption
      · intro hmem
        exact ih _ d hd (List.mem_cons_of_mem _ hmem)

theorem extractLoop_distinct :
    ∀ (ms : List (List Char × List Char)) (seen : List String),
      List.Pairwise (fun a b => a.item ≠ b.item) (extractLoop ms seen) := by
  intro ms
  induction ms with
  | nil => intro seen; simp [extractLoop]
  | cons m rest ih =>
    intro seen
    obtain ⟨numL, suffix⟩ := m
    rw [extractLoop]
    split
    · exact ih seen
    · refine List.pairwise_cons.mpr ⟨?_, ih _⟩
      intro d' hd' heq
      exact extractLoop_item_notin rest _ d' hd' (heq ▸ List.mem_cons_self _ _)

theorem extractLoop_first :
    ∀ (ms : List (List Char × List Char)) (seen : List String) (d : FilingItem),
      d ∈ extractLoop ms seen →
        ∃ p, ms.find? (fun m => (⟨m.1⟩ : String) == d.item) = some p ∧
          d = mkFilingItem p.1 p.2 := by
  intro ms
  induction ms with
  | nil => intro seen d h; simp [extractLoop] at h
  | cons m rest ih =>
    intro seen d h
    obtain ⟨numL, suffix⟩ := m
    rw [extractLoop] at h
    split at h
    next hseen =>
      obtain ⟨p, hp, hd⟩ := ih seen d h
      have hne : ¬ ((⟨numL⟩ : String) == d.item) = true := by
        simp only [beq_iff_eq]
        intro heq
        exact extractLoop_item_notin rest seen d h (heq ▸ hseen)
      have hstep : List.find? (fun m => (⟨m.1⟩ : String) == d.item) ((numL, suffix) :: rest)
          = List.find? (fun m => (⟨m.1⟩ : String) == d.item) rest :=
        List.find?_cons_of_neg rest hne
      exact ⟨p, by rw [hstep]; exact hp, hd⟩
    next hseen =>
      rcases List.mem_cons.mp h with hd | hd
      · refine ⟨(numL, suffix), ?_, hd⟩
        have hpos : ((⟨numL⟩ : String) == d.item) = true := by
          rw [hd]
          simp [mkFilingItem]
        have hstep : List.find? (fun m => (⟨m.1⟩ : String) == d.item) ((numL, suffix) :: rest)
            = some (numL, suffix) :=
          List.find?_cons_of_pos rest hpos
        exact hstep
      · obtain ⟨p, hp, hd'⟩ := ih _ d hd
        have hni := extractLoop_item_notin rest _ d hd
        have hne : ¬ ((⟨numL⟩ : String) == d.item) = true := by
          simp only [beq_iff_eq]
          intro heq
          exact hni (heq ▸ List.mem_cons_self _ _)
        have hstep : List.find? (fun m => (⟨m.1⟩ : String) == d.item) ((numL, suffix) :: rest)
            = List.find? (fun m => (⟨m.1⟩ : String) == d.item) rest :=
          List.find?_cons_of_neg rest hne
        exact ⟨p, by rw [hstep]; exact hp, hd'⟩

/-- Every prefix of an all-`p` list followed by a failing character splits
`takeWhile`/`dropWhile` exactly there. -/
theorem takeWhile_append_all (p : Char → Bool) (xs : List Char) (y : Char) (ys : List Char)
    (hall : ∀ a ∈ xs, p a = true) (hy : p y = false) :
    (xs ++ y :: ys).takeWhile p = xs ∧ (xs ++ y :: ys).dropWhile p = y :: ys := by
  induction xs with
  | nil => simp [List.takeWhile, List.dropWhile, hy]
  | cons x xs ih =>
    have hx : p x = true := hall x (List.mem_cons_self _ _)
    have ih' := ih (fun a ha => hall a (List.mem_cons_of_mem _ ha))
    simp only [List.cons_append, List.takeWhile_cons, List.dropWhile_cons, hx, if_true]
    exact ⟨by rw [ih'.1], by rw [ih'.2]⟩

theorem isItemShapeL_append (d1 d2 : List Char) (h1 : d1 ≠ [])
    (h1a : ∀ a ∈ d1, isDigitA a = true) (h2 : d2 ≠ [])
    (h2a : ∀ a ∈ d2, isDigitA a = true) :
    isItemShapeL (d1 ++ '.' :: d2) = true := by
  have hsplit := takeWhile_append_all isDigitA d1 '.' d2 h1a (by decide)
  rw [isItemShapeL, hsplit.1, hsplit.2]
  simp only [Bool.and_eq_true, decide_eq_true_eq]
  exact ⟨h1, h2, List.all_eq_true.mpr h2a⟩

theorem matchItemAt_shape (l n rem : List Char) (h : matchItemAt l = some (n, rem)) :
    isItemShape ⟨n⟩ = true := by
  match l with
  | [] => simp [matchItemAt] at h
  | [c0] => simp [matchItemAt] at h
  | [c0, c1] => simp [matchItemAt] at h
  | [c0, c1, c2] => simp [matchItemAt] at h
  | c0 :: c1 :: c2 :: c3 :: rest =>
    simp only [matchItemAt] at h
    split at h
    · split at h
      next hd1 =>
        simp at h
      next hd1 =>
        split at h
        next r2 heq =>
          split at h
          · simp at h
          next hd2 =>
            split at h
            · simp at h
            · simp only [Option.some.injEq, Prod.mk.injEq] at h
              obtain ⟨hn, -⟩ := h
              have hall1 : ∀ a ∈ (rest.dropWhile isPySpace).takeWhile isDigitA,
                  isDigitA a = true := fun a ha => List.mem_takeWhile_imp ha
              have hall2 : ∀ a ∈ r2.takeWhile isDigitA, isDigitA a = true :=
                fun a ha => List.mem_takeWhile_imp ha
              rw [← hn]
              show isItemShapeL
                ((rest.dropWhile isPySpace).takeWhile isDigitA ++
                  '.' :: r2.takeWhile isDigitA) = true
              exact isItemShapeL_append _ _ hd1 hall1 hd2 hall2
        next => simp at h
    · simp at h

theorem scanItems_shape_aux :
    ∀ (k : Nat) (l : List Char), l.length ≤ k →
      ∀ m ∈ scanItems l, isItemShape ⟨m.1⟩ = true := by
  intro k
  induction k with
  | zero =>
    intro l hl m hm
    have : l = [] := List.eq_nil_of_length_eq_zero (Nat.le_zero.mp hl)
    rw [this, scanItems_nil] at hm
    cases hm
  | succ k ih =>
    intro l hl m hm
    cases hmatch : matchItemAt l with
    | some p =>
      obtain ⟨n, rem⟩ := p
      rw [scanItems_eq_match l n rem hmatch] at hm
      rcases List.mem_cons.mp hm with hm | hm
      · rw [hm]
        exact matchItemAt_shape l n rem hmatch
      · have hlt := matchItemAt_shrink l n rem hmatch
        exact ih rem (by omega) m hm
    | none =>
      cases l with
      | nil => rw [scanItems_nil] at hm; cases hm
      | cons c rest =>
        rw [scanItems_eq_skip c rest hmatch] at hm
        have : rest.length ≤ k := by
          simp only [List.length_cons] at hl
          omega
        exact ih rest this m hm

theorem scanItems_shape (l : List Char) (m : List Char × List Char)
    (hm : m ∈ scanItems l) : isItemShape ⟨m.1⟩ = true :=
  scanItems_shape_aux l.length l le_rfl m hm

/-! ## Lemmas about the tag-stripping passes -/

theorem splitAtGt_decomp :
    ∀ l b a, splitAtGt l = some (b, a) → l = b ++ '>' :: a ∧ '>' ∉ b := by
  intro l
  induction l with
  | nil => intro b a h; simp [splitAtGt] at h
  | cons c r ih =>
    intro b a h
    rw [splitAtGt] at h
    by_cases hc : c = '>'
    · rw [if_pos hc] at h
      simp only [Option.some.injEq, Prod.mk.injEq] at h
      rw [← h.1, ← h.2, hc]
      simp
    · rw [if_neg hc] at h
      cases hr : splitAtGt r with
      | none => rw [hr] at h; cases h
      | some p =>
        obtain ⟨b', a'⟩ := p
        rw [hr] at h
        simp only [Option.some.injEq, Prod.mk.injEq] at h
        obtain ⟨hb, ha⟩ := h
        obtain ⟨hdec, hnb⟩ := ih b' a' hr
        constructor
        · rw [← hb, ← ha, hdec]
          simp
        · rw [← hb]
          intro hmem
          rcases List.mem_cons.mp hmem with hx | hx
          · exact hc hx.symm
          · exact hnb hx

theorem splitAtGt_none_no_gt : ∀ l, splitAtGt l = none → '>' ∉ l := by
  intro l
  induction l with
  | nil => intro _ h; cases h
  | cons c r ih =>
    intro h hmem
    rw [splitAtGt] at h
    by_cases hc : c = '>'
    · rw [if_pos hc] at h; cases h
    · rw [if_neg hc] at h
      cases hr : splitAtGt r with
      | some p => obtain ⟨b', a'⟩ := p; rw [hr] at h; cases h
      | none =>
        rcases List.mem_cons.mp hmem with hx | hx
        · exact hc hx.symm
        · exact ih hr hx

theorem stripTags_nil : stripTags [] = [] := rfl

theorem stripTags_cons_ne (c : Char) (rest : List Char) (h : c ≠ '<') :
    stripTags (c :: rest) = c :: stripTags rest := by
  rw [stripTags, stripTags, List.length_cons]
  simp only [stripTagsF, if_neg h]

theorem stripTags_none (rest : List Char) (h : splitAtGt rest = none) :
    stripTags ('<' :: rest) = '<' :: stripTags rest := by
  rw [stripTags, stripTags, List.length_cons]
  simp only [stripTagsF, if_pos rfl, h]
  simp

theorem stripTags_empty (rest a : List Char) (h : splitAtGt rest = some ([], a)) :
    stripTags ('<' :: rest) = '<' :: stripTags rest := by
  rw [stripTags, stripTags, List.length_cons]
  simp only [stripTagsF, if_pos rfl, h]
  simp

theorem stripTags_tag (rest b a : List Char) (h : splitAtGt rest = some (b, a))
    (hb : b ≠ []) : stripTags ('<' :: rest) = ' ' :: stripTags a := by
  rw [stripTags, stripTags, List.length_cons]
  simp only [stripTagsF, if_pos rfl, h, if_neg hb]
  have hlt := splitAtGt_shrink rest b a h
  rw [stripTagsF_fuel rest.length a.length a (by omega) le_rfl]
  simp

theorem gt_mem_stripTags_aux :
    ∀ (k : Nat) (l : List Char), l.length ≤ k → '>' ∈ stripTags l → '>' ∈ l := by
  intro k
  induction k with
  | zero =>
    intro l hl hm
    have : l = [] := List.eq_nil_of_length_eq_zero (Nat.le_zero.mp hl)
    rw [this, stripTags_nil] at hm
    cases hm
  | succ k ih =>
    intro l hl hm
    cases l with
    | nil => rw [stripTags_nil] at hm; cases hm
    | cons c rest =>
      simp only [List.length_cons] at hl
      by_cases hc : c = '<'
      · subst hc
        cases hr : splitAtGt rest with
        | none =>
          rw [stripTags_none rest hr] at hm
          rcases List.mem_cons.mp hm with hx | hx
          · cases hx
          · exact List.mem_cons_of_mem _ (ih rest (by omega) hx)
        | some p =>
          obtain ⟨b, a⟩ := p
          by_cases hb : b = []
          · subst hb
            rw [stripTags_empty rest a hr] at hm
            rcases List.mem_cons.mp hm with hx | hx
            · cases hx
            · exact List.mem_cons_of_mem _ (ih rest (by omega) hx)
          · rw [stripTags_tag rest b a hr hb] at hm
            rcases List.mem_cons.mp hm with hx | hx
            · cases hx
            · have hlen := splitAtGt_shrink rest b a hr
              have hma := ih a (by omega) hx
              have hdec := (splitAtGt_decomp rest b a hr).1
              refine List.mem_cons_of_mem _ ?_
              rw [hdec]
              exact List.mem_append_right _ (List.mem_cons_of_mem _ hma)
      · rw [stripTags_cons_ne c rest hc] at hm
        rcases List.mem_cons.mp hm with hx | hx
        · exact hx ▸ List.mem_cons_self _ _
        · exact List.mem_cons_of_mem _ (ih rest (by omega) hx)

theorem gt_mem_stripTags (l : List Char) (h : '>' ∈ stripTags l) : '>' ∈ l :=
  gt_mem_stripTags_aux l.length l le_rfl h

/-! ## The `Angle` invariant -/

theorem angle_nil : Angle [] := by
  intro pre post h
  exact absurd h.symm (by simp)

theorem cons_eq_append_cases (c : Char) (S pre post : List Char)
    (h : c :: S = pre ++ '<' :: post) :
    (pre = [] ∧ c = '<' ∧ S = post) ∨
      (∃ pre', pre = c :: pre' ∧ S = pre' ++ '<' :: post) := by
  cases pre with
  | nil =>
    simp only [List.nil_append, List.cons.injEq] at h
    exact Or.inl ⟨rfl, h.1, h.2⟩
  | cons p ps =>
    simp only [List.cons_append, List.cons.injEq] at h
    exact Or.inr ⟨ps, by rw [h.1], h.2⟩

theorem angle_cons (c : Char) (S : List Char) (hc : c ≠ '<') (hS : Angle S) :
    Angle (c :: S) := by
  intro pre post h
  rcases cons_eq_append_cases c S pre post h with ⟨-, hc', -⟩ | ⟨pre', -, hS'⟩
  · exact absurd hc' hc
  · exact hS pre' post hS'

theorem angle_cons_lt_gt (S : List Char) (hh : S.head? = some '>') (hS : Angle S) :
    Angle ('<' :: S) := by
  intro pre post h
  rcases cons_eq_append_cases '<' S pre post h with ⟨-, -, hpost⟩ | ⟨pre', -, hS'⟩
  · exact Or.inl (hpost ▸ hh)
  · exact hS pre' post hS'

theorem angle_cons_lt_nogt (S : List Char) (hng : '>' ∉ S) (hS : Angle S) :
    Angle ('<' :: S) := by
  intro pre post h
  rcases cons_eq_append_cases '<' S pre post h with ⟨-, -, hpost⟩ | ⟨pre', -, hS'⟩
  · refine Or.inr ?_
    intro hmem
    refine hng ?_
    rw [hpost]
    exact hmem
  · exact hS pre' post hS'

theorem angle_append_left (l₁ l₂ : List Char) (h : Angle (l₁ ++ l₂)) : Angle l₁ := by
  intro pre post hdec
  have hdec' : l₁ ++ l₂ = pre ++ '<' :: (post ++ l₂) := by
    rw [hdec]
    simp
  rcases h pre (post ++ l₂) hdec' with hh | hng
  · cases post with
    | nil => exact Or.inr (by simp)
    | cons q qs =>
      simp only [List.cons_append, List.head?_cons, Option.some.injEq] at hh
      exact Or.inl (by simp [hh])
  · exact Or.inr (fun hmem => hng (List.mem_append_left _ hmem))

theorem angle_suffix (l₁ l₂ : List Char) (h : Angle (l₁ ++ l₂)) : Angle l₂ := by
  intro pre post hdec
  exact h (l₁ ++ pre) post (by rw [List.append_assoc, ← hdec])

theorem angle_cons_inv (c : Char) (S : List Char) (h : Angle (c :: S)) : Angle S :=
  angle_suffix [c] S h

theorem angle_dropWhile (p : Char → Bool) (l : List Char) (h : Angle l) :
    Angle (l.dropWhile p) :=
  angle_suffix (l.takeWhile p) (l.dropWhile p)
    ((List.takeWhile_append_dropWhile p l).symm ▸ h)

theorem angle_take (n : Nat) (l : List Char) (h : Angle l) : Angle (l.take n) :=
  angle_append_left (l.take n) (l.drop n) ((List.take_append_drop n l).symm ▸ h)

theorem angle_rstrip (l : List Char) (h : Angle l) : Angle (rstripL l) := by
  have hdec : l = rstripL l ++ (l.reverse.takeWhile isPySpace).reverse := by
    rw [rstripL, ← List.reverse_append, List.takeWhile_append_dropWhile, List.reverse_reverse]
  exact angle_append_left _ _ (hdec ▸ h)

theorem angle_append_right (l₁ l₂ : List Char) (hlt : '<' ∉ l₂) (hgt : '>' ∉ l₂)
    (h : Angle l₁) : Angle (l₁ ++ l₂) := by
  induction l₁ with
  | nil =>
    intro pre post hdec
    simp only [List.nil_append] at hdec
    exact absurd (hdec ▸ List.mem_append_right pre (List.mem_cons_self '<' post)) hlt
  | cons c l₁' ih =>
    intro pre post hdec
    rcases cons_eq_append_cases c (l₁' ++ l₂) pre post hdec with ⟨-, hc, hpost⟩ | ⟨pre', -, hS'⟩
    · subst hc
      rcases h [] l₁' (by simp) with hh | hng
      · cases l₁' with
        | nil => simp at hh
        | cons q qs =>
          simp only [List.head?_cons, Option.some.injEq] at hh
          rw [← hpost]
          simp [hh]
      · refine Or.inr ?_
        rw [← hpost]
        intro hmem
        rcases List.mem_append.mp hmem with hx | hx
        · exact hng hx
        · exact hgt hx
    · exact ih (angle_cons_inv c l₁' h) pre' post hS'

theorem angle_stripTags_aux : ∀ (k : Nat) (l : List Char), l.length ≤ k →
    Angle (stripTags l) := by
  intro k
  induction k with
  | zero =>
    intro l hl
    have : l = [] := List.eq_nil_of_length_eq_zero (Nat.le_zero.mp hl)
    rw [this, stripTags_nil]
    exact angle_nil
  | succ k ih =>
    intro l hl
    cases l with
    | nil => rw [stripTags_nil]; exact angle_nil
    | cons c rest =>
      simp only [List.length_cons] at hl
      by_cases hc : c = '<'
      · subst hc
        cases hr : splitAtGt rest with
        | none =>
          rw [stripTags_none rest hr]
          refine angle_cons_lt_nogt _ ?_ (ih rest (by omega))
          intro hmem
          exact splitAtGt_none_no_gt rest hr (gt_mem_stripTags rest hmem)
        | some p =>
          obtain ⟨b, a⟩ := p
          by_cases hb : b = []
          · subst hb
            rw [stripTags_empty rest a hr]
            have hrest : rest = '>' :: a := by
              have := (splitAtGt_decomp rest [] a hr).1
              simpa using this
            have hhead : (stripTags rest).head? = some '>' := by
              rw [hrest, stripTags_cons_ne '>' a (by decide)]
              rfl
            exact angle_cons_lt_gt _ hhead (ih rest (by omega))
          · rw [stripTags_tag rest b a hr hb]
            have hlen := splitAtGt_shrink rest b a hr
            exact angle_cons ' ' _ (by decide) (ih a (by omega))
      · rw [stripTags_cons_ne c rest hc]
        exact angle_cons c _ hc (ih rest (by omega))

theorem angle_stripTags (l : List Char) : Angle (stripTags l) :=
  angle_stripTags_aux l.length l le_rfl

theorem angle_stripTrailing : ∀ l : List Char, Angle l → Angle (stripTrailing l) := by
  intro l
  induction l with
  | nil => intro _; rw [stripTrailing]; exact angle_nil
  | cons c rest ih =>
    intro h
    rw [stripTrailing]
    by_cases hc : c = '<'
    · rw [if_pos hc]
      by_cases hg : rest.contains '>'
      · rw [if_pos hg]
        rcases h [] rest (by rw [hc]; simp) with hh | hng
        · cases rest with
          | nil => simp at hh
          | cons q qs =>
            simp only [List.head?_cons, Option.some.injEq] at hh
            subst hh
            rw [hc]
            refine angle_cons_lt_gt _ ?_ (ih (angle_cons_inv c _ h))
            rw [stripTrailing, if_neg (by decide : ¬ ('>' : Char) = '<')]
            rfl
        · exact absurd (List.mem_of_elem_eq_true hg) hng
      · rw [if_neg hg]
        exact angle_cons ' ' [] (by decide) angle_nil
    · rw [if_neg hc]
      exact angle_cons c _ hc (ih (angle_cons_inv c _ h))

theorem collapseWs_nil : collapseWs [] = [] := rfl

theorem collapseWs_ws (c : Char) (rest : List Char) (h : isPySpace c = true) :
    collapseWs (c :: rest) = ' ' :: collapseWs (rest.dropWhile isPySpace) := by
  rw [collapseWs, collapseWs, List.length_cons]
  simp only [collapseWsF, h, if_true]
  have hdw := dropWhile_len_le isPySpace rest
  rw [collapseWsF_fuel rest.length (rest.dropWhile isPySpace).length
    (rest.dropWhile isPySpace) (by omega) le_rfl]

theorem collapseWs_nws (c : Char) (rest : List Char) (h : isPySpace c = false) :
    collapseWs (c :: rest) = c :: collapseWs rest := by
  rw [collapseWs, collapseWs, List.length_cons]
  simp only [collapseWsF, h, Bool.false_eq_true, if_false]

theorem gt_mem_collapseWs_aux :
    ∀ (k : Nat) (l : List Char), l.length ≤ k → '>' ∈ collapseWs l → '>' ∈ l := by
  intro k
  induction k with
  | zero =>
    intro l hl hm
    have : l = [] := List.eq_nil_of_length_eq_zero (Nat.le_zero.mp hl)
    rw [this, collapseWs_nil] at hm
    cases hm
  | succ k ih =>
    intro l hl hm
    cases l with
    | nil => rw [collapseWs_nil] at hm; cases hm
    | cons c rest =>
      simp only [List.length_cons] at hl
      cases hws : isPySpace c with
      | true =>
        rw [collapseWs_ws c rest hws] at hm
        rcases List.mem_cons.mp hm with hx | hx
        · cases hx
        · have hlen := dropWhile_len_le isPySpace rest
          have := ih (rest.dropWhile isPySpace) (by omega) hx
          exact List.mem_cons_of_mem _ ((List.dropWhile_sublist isPySpace).mem this)
      | false =>
        rw [collapseWs_nws c rest hws] at hm
        rcases List.mem_cons.mp hm with hx | hx
        · exact hx ▸ List.mem_cons_self _ _
        · exact List.mem_cons_of_mem _ (ih rest (by omega) hx)

theorem gt_mem_collapseWs (l : List Char) (h : '>' ∈ collapseWs l) : '>' ∈ l :=
  gt_mem_collapseWs_aux l.length l le_rfl h

theorem angle_collapseWs_aux :
    ∀ (k : Nat) (l : List Char), l.length ≤ k → Angle l → Angle (collapseWs l) := by
  intro k
  induction k with
  | zero =>
    intro l hl _
    have : l = [] := List.eq_nil_of_length_eq_zero (Nat.le_zero.mp hl)
    rw [this, collapseWs_nil]
    exact angle_nil
  | succ k ih =>
    intro l hl h
    cases l with
    | nil => rw [collapseWs_nil]; exact angle_nil
    | cons c rest =>
      simp only [List.length_cons] at hl
      cases hws : isPySpace c with
      | true =>
        rw [collapseWs_ws c rest hws]
        have hlen := dropWhile_len_le isPySpace rest
        refine angle_cons ' ' _ (by decide) ?_
        exact ih _ (by omega) (angle_dropWhile isPySpace rest (angle_cons_inv c rest h))
      | false =>
        rw [collapseWs_nws c rest hws]
        by_cases hc : c = '<'
        · subst hc
          rcases h [] rest (by simp) with hh | hng
          · cases rest with
            | nil => simp at hh
            | cons q qs =>
              simp only [List.head?_cons, Option.some.injEq] at hh
              subst hh
              refine angle_cons_lt_gt _ ?_ (ih ('>' :: qs) (by omega) (angle_cons_inv _ _ h))
              rw [collapseWs_nws '>' qs (by decide)]
              rfl
          · refine angle_cons_lt_nogt _ ?_ (ih rest (by omega) (angle_cons_inv _ _ h))
            intro hmem
            exact hng (gt_mem_collapseWs rest hmem)
        · exact angle_cons c _ hc (ih rest (by omega) (angle_cons_inv _ _ h))

theorem angle_collapseWs (l : List Char) (h : Angle l) : Angle (collapseWs l) :=
  angle_collapseWs_aux l.length l le_rfl h

/-- The full context pipeline leaves no residual tag material. -/
theorem angle_ctxProcess (w : List Char) : Angle (ctxProcess w) := by
  have h1 : Angle (pyStripL (collapseWs (stripTrailing (stripTags w)))) := by
    refine angle_rstrip _ (angle_dropWhile isPySpace _ ?_)
    exact angle_collapseWs _ (angle_stripTrailing _ (angle_stripTags w))
  rw [ctxProcess]
  split
  · refine angle_append_right _ _ (by decide) (by decide) ?_
    exact angle_take 300 _ h1
  · exact h1

/-! ## Lemmas about the registry maps -/

theorem lookupA_insA_self : ∀ (m : List (String × String)) (k v : String),
    lookupA (insA m k v) k = some v := by
  intro m
  induction m with
  | nil => intro k v; simp [insA, lookupA]
  | cons p rest ih =>
    intro k v
    obtain ⟨k', v'⟩ := p
    rw [insA]
    by_cases hk : k' = k
    · rw [if_pos hk, lookupA, if_pos rfl]
    · rw [if_neg hk, lookupA, if_neg hk]
      exact ih k v

theorem lookupA_insA_ne : ∀ (m : List (String × String)) (k k' v : String), k' ≠ k →
    lookupA (insA m k' v) k = lookupA m k := by
  intro m
  induction m with
  | nil => intro k k' v h; simp [insA, lookupA, if_neg h]
  | cons p rest ih =>
    intro k k' v h
    obtain ⟨k0, v0⟩ := p
    rw [insA]
    by_cases hk : k0 = k'
    · rw [if_pos hk, lookupA, if_neg h, lookupA, if_neg (hk ▸ h)]
    · rw [if_neg hk, lookupA, lookupA]
      by_cases hk0 : k0 = k
      · rw [if_pos hk0, if_pos hk0]
      · rw [if_neg hk0, if_neg hk0]
        exact ih k k' v h

theorem mem_insA : ∀ (m : List (String × String)) (k v : String) (p : String × String),
    p ∈ insA m k v → p = (k, v) ∨ p ∈ m := by
  intro m
  induction m with
  | nil => intro k v p h; simp [insA] at h; exact Or.inl h
  | cons q rest ih =>
    intro k v p h
    obtain ⟨k0, v0⟩ := q
    rw [insA] at h
    by_cases hk : k0 = k
    · rw [if_pos hk] at h
      rcases List.mem_cons.mp h with hx | hx
      · exact Or.inl hx
      · exact Or.inr (List.mem_cons_of_mem _ hx)
    · rw [if_neg hk] at h
      rcases List.mem_cons.mp h with hx | hx
      · exact Or.inr (hx ▸ List.mem_cons_self _ _)
      · rcases ih k v p hx with hx' | hx'
        · exact Or.inl hx'
        · exact Or.inr (List.mem_cons_of_mem _ hx')

theorem lookupA_insA_isSome (m : List (String × String)) (k k' v : String)
    (h : (lookupA m k).isSome) : (lookupA (insA m k' v) k).isSome := by
  by_cases hk : k' = k
  · subst hk
    rw [lookupA_insA_self]
    rfl
  · rw [lookupA_insA_ne m k k' v hk]
    exact h

theorem foldl_tickerStep_preserve :
    ∀ (post : List TickerEntry) (m : List (String × String) × List (String × String))
      (t c : String),
      lookupA m.1 t = some c → lookupA m.2 c = some t →
      (∀ e ∈ post, normTicker e ≠ "" → normCik e ≠ "" →
        normTicker e ≠ t ∧ normCik e ≠ c) →
      lookupA (post.foldl tickerStep m).1 t = some c ∧
        lookupA (post.foldl tickerStep m).2 c = some t := by
  intro post
  induction post with
  | nil => intro m t c h1 h2 _; exact ⟨h1, h2⟩
  | cons e rest ih =>
    intro m t c h1 h2 hp
    rw [List.foldl_cons]
    by_cases hv : normTicker e ≠ "" ∧ normCik e ≠ ""
    · have hne := hp e (List.mem_cons_self _ _) hv.1 hv.2
      have hstep : tickerStep m e =
          (insA m.1 (normTicker e) (normCik e), insA m.2 (normCik e) (normTicker e)) := by
        rw [tickerStep, if_pos hv]
      rw [hstep]
      refine ih _ t c ?_ ?_ (fun e' he' => hp e' (List.mem_cons_of_mem _ he'))
      · rw [lookupA_insA_ne _ t _ _ hne.1]
        exact h1
      · rw [lookupA_insA_ne _ c _ _ hne.2]
        exact h2
    · have hstep : tickerStep m e = m := by rw [tickerStep, if_neg hv]
      rw [hstep]
      exact ih m t c h1 h2 (fun e' he' => hp e' (List.mem_cons_of_mem _ he'))

theorem foldl_tickerStep_mem :
    ∀ (feed : List TickerEntry) (m : List (String × String) × List (String × String))
      (p : String × String),
      (p ∈ (feed.foldl tickerStep m).1 →
        p ∈ m.1 ∨ ∃ e ∈ feed, p.1 = normTicker e ∧ p.2 = normCik e ∧
          normTicker e ≠ "" ∧ normCik e ≠ "") ∧
      (p ∈ (feed.foldl tickerStep m).2 →
        p ∈ m.2 ∨ ∃ e ∈ feed, p.1 = normCik e ∧ p.2 = normTicker e ∧
          normTicker e ≠ "" ∧ normCik e ≠ "") := by
  intro feed
  induction feed with
  | nil => intro m p; exact ⟨fun h => Or.inl h, fun h => Or.inl h⟩
  | cons e rest ih =>
    intro m p
    rw [List.foldl_cons]
    by_cases hv : normTicker e ≠ "" ∧ normCik e ≠ ""
    · have hstep : tickerStep m e =
          (insA m.1 (normTicker e) (normCik e), insA m.2 (normCik e) (normTicker e)) := by
        rw [tickerStep, if_pos hv]
      rw [hstep]
      constructor
      · intro h
        rcases (ih _ p).1 h with hx | ⟨e', he', hx⟩
        · rcases mem_insA _ _ _ p hx with hx' | hx'
          · exact Or.inr ⟨e, List.mem_cons_self _ _, by rw [hx'], by rw [hx'], hv.1, hv.2⟩
          · exact Or.inl hx'
        · exact Or.inr ⟨e', List.mem_cons_of_mem _ he', hx⟩
      · intro h
        rcases (ih _ p).2 h with hx | ⟨e', he', hx⟩
        · rcases mem_insA _ _ _ p hx with hx' | hx'
          · exact Or.inr ⟨e, List.mem_cons_self _ _, by rw [hx'], by rw [hx'], hv.1, hv.2⟩
          · exact Or.inl hx'
        · exact Or.inr ⟨e', List.mem_cons_of_mem _ he', hx⟩
    · have hstep : tickerStep m e = m := by rw [tickerStep, if_neg hv]
      rw [hstep]
      constructor
      · intro h
        rcases (ih m p).1 h with hx | ⟨e', he', hx⟩
        · exact Or.inl hx
        · exact Or.inr ⟨e', List.mem_cons_of_mem _ he', hx⟩
      · intro h
        rcases (ih m p).2 h with hx | ⟨e', he', hx⟩
        · exact Or.inl hx
        · exact Or.inr ⟨e', List.mem_cons_of_mem _ he', hx⟩

theorem tickerStep_isSome (m : List (String × String) × List (String × String))
    (e : TickerEntry) (k : String) :
    ((lookupA m.1 k).isSome → (lookupA (tickerStep m e).1 k).isSome) ∧
      ((lookupA m.2 k).isSome → (lookupA (tickerStep m e).2 k).isSome) := by
  rw [tickerStep]
  by_cases hv : normTicker e ≠ "" ∧ normCik e ≠ ""
  · rw [if_pos hv]
    exact ⟨lookupA_insA_isSome _ _ _ _, lookupA_insA_isSome _ _ _ _⟩
  · rw [if_neg hv]
    exact ⟨id, id⟩

theorem foldl_tickerStep_isSome :
    ∀ (feed : List TickerEntry) (m : List (String × String) × List (String × String))
      (k : String),
      ((lookupA m.1 k).isSome → (lookupA (feed.foldl tickerStep m).1 k).isSome) ∧
        ((lookupA m.2 k).isSome → (lookupA (feed.foldl tickerStep m).2 k).isSome) := by
  intro feed
  induction feed with
  | nil => intro m k; exact ⟨id, id⟩
  | cons e rest ih =>
    intro m k
    rw [List.foldl_cons]
    exact ⟨fun h => (ih _ k).1 ((tickerStep_isSome m e k).1 h),
           fun h => (ih _ k).2 ((tickerStep_isSome m e k).2 h)⟩

/-! ## Lemmas about the index parser -/

theorem parseLine_fields (lineL : List Char) (f : Filing) (h : parseLine lineL = some f) :
    f.accession = ⟨removeTxt ((pySplitC '/' f.filename.data).getLastD [])⟩ ∧
      f.raw_url = SEC_ARCHIVES_BASE ++ "/" ++ f.filename := by
  rw [parseLine] at h
  split at h
  · split at h
    next p0 p1 p2 p3 p4 rest heq =>
      simp only [Option.some.injEq] at h
      rw [← h]
      exact ⟨rfl, rfl⟩
    next => cases h
  · cases h

theorem parseIndexBody_fields (text : String) (f : Filing) (h : f ∈ parseIndexBody text) :
    f.accession = ⟨removeTxt ((pySplitC '/' f.filename.data).getLastD [])⟩ ∧
      f.raw_url = SEC_ARCHIVES_BASE ++ "/" ++ f.filename := by
  rw [parseIndexBody] at h
  obtain ⟨lineL, -, hline⟩ := List.mem_filterMap.mp h
  exact parseLine_fields lineL f hline

/-! ## Lemmas about the primary-document selector -/

theorem select_none_iff (text ft : String) :
    extract_primary_document_filename text ft = none ↔ docCandidates text = [] := by
  rw [extract_primary_document_filename]
  by_cases h : text = ""
  · rw [if_pos h, h]
    simp only [true_iff]
    rfl
  · rw [if_neg h]
    cases hs : sortB (rankLeB (pyUpperS ft)) (docCandidates text) with
    | nil =>
      simp only [true_iff]
      have := sortB_perm (rankLeB (pyUpperS ft)) (docCandidates text)
      rw [hs] at this
      exact this.symm.eq_nil
    | cons c t =>
      constructor
      · intro hx
        cases hx
      · intro hnil
        rw [hnil] at hs
        simp [sortB] at hs

theorem select_min (text ft fn : String)
    (h : extract_primary_document_filename text ft = some fn) :
    ∃ c ∈ docCandidates text, c.fname = fn ∧
      ∀ c' ∈ docCandidates text, rankLeB (pyUpperS ft) c c' = true := by
  rw [extract_primary_document_filename] at h
  split at h
  · cases h
  · revert h
    cases hs : sortB (rankLeB (pyUpperS ft)) (docCandidates text) with
    | nil => intro h; cases h
    | cons c t =>
      intro h
      simp only [Option.some.injEq] at h
      have hperm := sortB_perm (rankLeB (pyUpperS ft)) (docCandidates text)
      rw [hs] at hperm
      have hsorted := sortB_pairwise (rankLeB (pyUpperS ft)) (rankLeB_total _)
        (rankLeB_trans _) (docCandidates text)
      rw [hs] at hsorted
      obtain ⟨hhead, -⟩ := List.pairwise_cons.mp hsorted
      refine ⟨c, hperm.mem_iff.mp (List.mem_cons_self _ _), h ▸ rfl, ?_⟩
      intro c' hc'
      rcases List.mem_cons.mp (hperm.mem_iff.mpr hc') with hx | hx
      · rw [hx]
        exact lex3Le_refl _
      · exact hhead c' hx

/-! ## Remaining supporting lemmas -/

theorem extract_context_shape (content : String) (d : FilingItem)
    (h : d ∈ extract_8k_items content) :
    d.context.length ≤ 300 ∨
      (d.context.length = 303 ∧ d.context.data.drop 300 = ['.', '.', '.']) := by
  obtain ⟨m, -, hd⟩ := extract_mem_mk content d h
  rw [hd]
  exact ctxProcess_len (m.2.take 500)

theorem extract_context_angle (content : String) (d : FilingItem)
    (h : d ∈ extract_8k_items content) : Angle d.context.data := by
  obtain ⟨m, -, hd⟩ := extract_mem_mk content d h
  rw [hd]
  exact angle_ctxProcess (m.2.take 500)

theorem c2lit_head_match (t : List Char) :
    matchItemAt (c2lit.data ++ t) = some ("5.02".data, t.dropWhile notNL) := rfl

theorem extract_c2lit (s : String) :
    ∃ d ∈ extract_8k_items (c2lit ++ s), d.item = "5.02" ∧
      d.description = "Departure/Appointment of Directors or Officers" ∧
      d.is_priority = true ∧ d.context.length ≤ 303 := by
  have hdata : (c2lit ++ s).data = c2lit.data ++ s.data := rfl
  have hne : ¬ (c2lit ++ s) = "" := by
    intro hx
    have hl : (c2lit ++ s).data = [] := by rw [hx]
    rw [hdata] at hl
    cases hl
  rw [extract_8k_items, if_neg hne]
  have hscan : scanItems (c2lit ++ s).data
      = ("5.02".data, s.data.dropWhile notNL) :: scanItems (s.data.dropWhile notNL) := by
    rw [hdata]
    exact scanItems_eq_match _ _ _ (c2lit_head_match s.data)
  rw [hscan, extractLoop, if_neg (by simp)]
  refine ⟨mkFilingItem "5.02".data (s.data.dropWhile notNL),
    (mem_sortB _ _ _).mpr (List.mem_cons_self _ _), rfl, rfl, rfl, ?_⟩
  exact ctxProcess_len_le _

/-! ## The claims -/

/-- C1: for every bundle text, the extractor's output has at most one
`ItemDisclosure` per item-number string (the retained entry is built from
the first textual occurrence — the first element of the match scan bearing
that number), and the output is pairwise non-decreasing in the exact
numeric value of the item number (`itemLeB`, the embedding of the
`float(x.item)` sort key; decimal-to-float rounding is monotone, so a list
sorted by exact decimal value is sorted by float value). -/
theorem c1_items_unique_sorted (content : String) :
    List.Pairwise (fun a b => a.item ≠ b.item) (extract_8k_items content) ∧
    List.Pairwise (fun a b => itemLeB a.item b.item = true) (extract_8k_items content) ∧
    ∀ d ∈ extract_8k_items content,
      ∃ p, (scanItems content.data).find? (fun m => (⟨m.1⟩ : String) == d.item) = some p ∧
        d = mkFilingItem p.1 p.2 := by
  by_cases hc : content = ""
  · rw [extract_8k_items, if_pos hc]
    exact ⟨List.Pairwise.nil, List.Pairwise.nil, by simp⟩
  · rw [extract_8k_items, if_neg hc]
    refine ⟨?_, ?_, ?_⟩
    · exact ((sortB_perm filingLeB
        (extractLoop (scanItems content.data) [])).pairwise_iff
        (fun hab => Ne.symm hab)).mpr (extractLoop_distinct _ _)
    · have hp := sortB_pairwise filingLeB
        (fun a b => itemLeB_total a.item b.item)
        (fun a b c => itemLeB_trans a.item b.item c.item)
        (extractLoop (scanItems content.data) [])
      exact hp.imp (fun hab => hab)
    · intro d hd
      exact extractLoop_first _ _ d
        ((mem_sortB filingLeB (extractLoop (scanItems content.data) []) d).mp hd)

/-- Witness for C1 at the concrete bundle `ce1`, whose item 2.02 occurs
twice: the retained disclosure is the one built from the first scan entry
numbered 2.02. -/
theorem c1_witness :
    ∃ p, (scanItems ce1.data).find? (fun m => (⟨m.1⟩ : String) == dEx1.item) = some p ∧
      dEx1 = mkFilingItem p.1 p.2 :=
  (c1_items_unique_sorted ce1).2.2 dEx1 (by decide)

/-- C2 (amended): every context snippet holds at most 300 characters before
the continuation marker (whole string at most 303 = 300 + "..."), and a
bundle *beginning with* `Item 5.02: Departure of Director` followed by at
least 500 characters yields an ItemDisclosure with item "5.02", the catalog
description, priority true, and a context of at most 303 characters.  (The
spec's "containing" is weakened to "beginning with": see the
counterexample, where a preceding item heading on the same line swallows
the 5.02 heading.) -/
theorem c2_item502_example :
    (∀ (content : String), ∀ d ∈ extract_8k_items content,
      d.context.length ≤ 300 ∨
        (d.context.length = 303 ∧ d.context.data.drop 300 = ['.', '.', '.'])) ∧
    (∀ s : String, 500 ≤ s.length →
      ∃ d ∈ extract_8k_items (c2lit ++ s), d.item = "5.02" ∧
        d.description = "Departure/Appointment of Directors or Officers" ∧
        d.is_priority = true ∧ d.context.length ≤ 303) :=
  ⟨fun content d h => extract_context_shape content d h, fun s _ => extract_c2lit s⟩

/-- Witness for C2 with the 500-character suffix `post500`. -/
theorem c2_witness :
    500 ≤ post500.length ∧
      ∃ d ∈ extract_8k_items (c2lit ++ post500), d.item = "5.02" ∧
        d.description = "Departure/Appointment of Directors or Officers" ∧
        d.is_priority = true ∧ d.context.length ≤ 303 :=
  ⟨by decide, c2_item502_example.2 post500 (by decide)⟩

/-- Counterexample to C2 as stated: `ce2` contains
`Item 5.02: Departure of Director` followed by 500 characters, yet the
extractor returns no disclosure numbered 5.02 — the preceding heading
`item 1.01:` on the same line matches first and its optional trailing group
`([^\n]+)?` consumes the rest of the line, swallowing the 5.02 heading. -/
theorem c2_counterexample :
    ce2 = c2pre ++ c2lit ++ post500 ∧ 500 ≤ post500.length ∧
      ∀ d ∈ extract_8k_items ce2, d.item ≠ "5.02" :=
  ⟨rfl, by decide, by decide⟩

/-- C3 (amended): in every context snippet the extractor returns, each
`'<'` is either immediately followed by `'>'` (the inert two-character pair
`<>`, which carries no tag content) or is followed by no `'>'` at all; in
particular no complete or partial tag with content — and so no tag cut by
the 500-character window — survives the two stripping passes. -/
theorem c3_no_residual_tags (content : String) (d : FilingItem)
    (h : d ∈ extract_8k_items content) : Angle d.context.data :=
  extract_context_angle content d h

/-- Witness for C3 at the concrete bundle `ce3`. -/
theorem c3_witness : Angle dEx3.context.data :=
  c3_no_residual_tags ce3 dEx3 (by decide)

/-- Counterexample to C3 as stated ("no residual complete or partial markup
fragment in any snippet"): the snippet extracted from `ce3` is `a<>b`,
which retains the unescaped markup pair `<>` — the complete-tag regex
`<[^>]+>` requires non-empty content and the trailing-fragment regex
`<[^>]*$` requires no later `'>'`, so neither removes it. -/
theorem c3_counterexample :
    dEx3 ∈ extract_8k_items ce3 ∧ hasAnglePair dEx3.context.data = true ∧
      dEx3.context = "a<>b" := by
  refine ⟨by decide, by decide, rfl⟩

/-- C4: the primary-document selector returns a filename exactly when some
block yields both a type and a filename descriptor, and any returned
filename belongs to a candidate whose rank tuple (type-mismatch flag,
non-HTML flag, sequence — 9999 when absent) is minimal; the two worked
examples of the spec hold, including amendment-suffix-insensitive type
matching for "8-K/A". -/
theorem c4_selector_ranking :
    (∀ text ft : String,
      (extract_primary_document_filename text ft = none ↔ docCandidates text = []) ∧
      ∀ fn, extract_primary_document_filename text ft = some fn →
        ∃ c ∈ docCandidates text, c.fname = fn ∧
          ∀ c' ∈ docCandidates text, rankLeB (pyUpperS ft) c c' = true) ∧
    extract_primary_document_filename bundle1 "8-K" = some "form8k.htm" ∧
    extract_primary_document_filename bundle2 "8-K/A" = some "a.htm" ∧
    (docCandidates bundle3).map (fun c => c.seq) = [9999] :=
  ⟨fun text ft => ⟨select_none_iff text ft, fun fn h => select_min text ft fn h⟩,
   by decide, by decide, by decide⟩

/-- Witness for C4: the minimal-rank characterisation applied to the first
worked example. -/
theorem c4_witness :
    ∃ c ∈ docCandidates bundle1, c.fname = "form8k.htm" ∧
      ∀ c' ∈ docCandidates bundle1, rankLeB (pyUpperS "8-K") c c' = true :=
  (c4_selector_ranking.1 bundle1 "8-K").2 "form8k.htm" (by decide)

/-- C5 (amended): the per-filing enrichment fetches, extracts and re-links
only filings whose form-type label contains "8-K"; for those, the items
field becomes the extractor's output on the fetched bundle and the browser
URL becomes the primary-document URL when one is found (else the index-page
URL); all other matched filings get an empty item list and keep their URL
unchanged. -/
theorem c5_enrichment (fetch : String → String) (f : Filing) :
    (hasSubL "8-K".data f.form_type.data = true →
      (enrichFiling fetch f).items = some (extract_8k_items (fetch f.raw_url)) ∧
      (enrichFiling fetch f).url =
        (match extract_primary_document_filename (fetch f.raw_url) f.form_type with
         | some fn => folderUrlOf f ++ fn
         | none => folderUrlOf f ++ f.accession ++ "-index.html") ∧
      (enrichFiling fetch f).ticker = f.ticker) ∧
    (hasSubL "8-K".data f.form_type.data = false →
      enrichFiling fetch f = { f with items := some [] }) := by
  constructor
  · intro h8
    rw [enrichFiling, if_pos h8]
    exact ⟨rfl, rfl, rfl⟩
  · intro h8
    rw [enrichFiling, if_neg (by rw [h8]; simp)]

/-- Witness for C5: an 8-K filing is enriched from the fetched content; a
DEF 14A filing is not. -/
theorem c5_witness :
    (enrichFiling fetchEx f8K).items = some (extract_8k_items (fetchEx f8K.raw_url)) ∧
      enrichFiling fetchEx fDef14A = { fDef14A with items := some [] } :=
  ⟨((c5_enrichment fetchEx f8K).1 (by decide)).1,
   (c5_enrichment fetchEx fDef14A).2 (by decide)⟩

/-- Counterexample to C5 as stated: for the matched filing `fDef14A` (form
type "DEF 14A") the fetcher/extractor/selector do not run — its items field
is set to the empty list even though the extractor applied to the fetched
bundle would return a disclosure, and its browser URL stays the index-page
URL. -/
theorem c5_counterexample :
    hasSubL "8-K".data fDef14A.form_type.data = false ∧
    (enrichFiling fetchEx fDef14A).items = some [] ∧
    extract_8k_items (fetchEx fDef14A.raw_url) ≠ [] ∧
    (enrichFiling fetchEx fDef14A).url = fDef14A.url := by
  decide

/-- C6 (amended): every emitted record's accession identifier equals the
final path segment of its raw relative path with every occurrence of
`".txt"` removed (`str.replace`, not suffix stripping — they agree whenever
`".txt"` occurs only as a suffix, as in real archive paths), its raw-bundle
URL is the archive root ++ "/" ++ the relative path verbatim, and the
spec's worked Apple line derives accession `0000320193-24-000050`. -/
theorem c6_accession_derivation :
    (∀ (text : String), ∀ f ∈ parseIndexBody text,
      f.accession = ⟨removeTxt ((pySplitC '/' f.filename.data).getLastD [])⟩ ∧
      f.raw_url = SEC_ARCHIVES_BASE ++ "/" ++ f.filename) ∧
    (parseIndexBody appleLine).map (fun f => (f.accession, f.raw_url)) =
      [("0000320193-24-000050",
        "https://www.sec.gov/Archives/edgar/data/320193/0000320193-24-000050.txt")] :=
  ⟨fun text f h => parseIndexBody_fields text f h, by decide⟩

/-- Witness for C6 at the worked Apple index line. -/
theorem c6_witness :
    fApple.accession = ⟨removeTxt ((pySplitC '/' fApple.filename.data).getLastD [])⟩ ∧
      fApple.raw_url = SEC_ARCHIVES_BASE ++ "/" ++ fApple.filename :=
  c6_accession_derivation.1 appleLine fApple (by decide)

/-- Counterexample to C6 as stated ("with any `.txt` suffix removed"): on
an index line whose last path segment contains `".txt"` in the middle, the
code's `replace(".txt", "")` deletes the interior occurrence too, so the
derived accession differs from suffix stripping. -/
theorem c6_counterexample :
    ∃ f ∈ parseIndexBody txtLine,
      f.accession ≠ (⟨stripTxtSuffix (lastSegment f.filename)⟩ : String) := by
  decide

/-- C7: for every bulk feed and every surviving entry — a valid entry whose
normalised ticker and identifier are not reused by any later valid entry —
the two resolver maps are reciprocal: ticker→id maps its ticker to its id
and id→ticker maps its id back to its ticker. -/
theorem c7_reciprocal_maps (feed pre post : List TickerEntry) (e : TickerEntry)
    (hfeed : feed = pre ++ e :: post)
    (ht : normTicker e ≠ "") (hc : normCik e ≠ "")
    (hsurv : ∀ e' ∈ post, normTicker e' ≠ "" → normCik e' ≠ "" →
      normTicker e' ≠ normTicker e ∧ normCik e' ≠ normCik e) :
    lookupA (get_ticker_to_cik_mapping feed).1 (normTicker e) = some (normCik e) ∧
    lookupA (get_ticker_to_cik_mapping feed).2 (normCik e) = some (normTicker e) := by
  rw [hfeed, get_ticker_to_cik_mapping, List.foldl_append, List.foldl_cons]
  have hstep : tickerStep (pre.foldl tickerStep ([], [])) e =
      (insA (pre.foldl tickerStep ([], [])).1 (normTicker e) (normCik e),
       insA (pre.foldl tickerStep ([], [])).2 (normCik e) (normTicker e)) := by
    rw [tickerStep, if_pos ⟨ht, hc⟩]
  rw [hstep]
  exact foldl_tickerStep_preserve post _ (normTicker e) (normCik e)
    (lookupA_insA_self _ _ _) (lookupA_insA_self _ _ _) hsurv

/-- Witness for C7 on `feed7`, whose first entry is overwritten and whose
second and third entries survive. -/
theorem c7_witness :
    lookupA (get_ticker_to_cik_mapping feed7).1 "A" = some "2" ∧
    lookupA (get_ticker_to_cik_mapping feed7).2 "2" = some "A" :=
  c7_reciprocal_maps feed7 [⟨"a", "1"⟩] [⟨"b", "3"⟩] ⟨"a", "2"⟩ rfl
    (by decide) (by decide) (by decide)

/-- C8 (amended): every pair stored in either resolver map comes from a
feed entry with the ticker upper-cased as a string (NOT trimmed — see the
counterexample) and the identifier trimmed as a string, both non-empty; and
every entry whose two normalised fields are non-empty ends up present (under
those normalised keys) in both directions.  Entries with an empty
normalised ticker or identifier are discarded. -/
theorem c8_entry_normalisation (feed : List TickerEntry) :
    (∀ p ∈ (get_ticker_to_cik_mapping feed).1, p.1 ≠ "" ∧ p.2 ≠ "" ∧
      ∃ e ∈ feed, p.1 = normTicker e ∧ p.2 = normCik e) ∧
    (∀ p ∈ (get_ticker_to_cik_mapping feed).2, p.1 ≠ "" ∧ p.2 ≠ "" ∧
      ∃ e ∈ feed, p.1 = normCik e ∧ p.2 = normTicker e) ∧
    (∀ e ∈ feed, normTicker e ≠ "" → normCik e ≠ "" →
      (lookupA (get_ticker_to_cik_mapping feed).1 (normTicker e)).isSome = true ∧
      (lookupA (get_ticker_to_cik_mapping feed).2 (normCik e)).isSome = true) := by
  refine ⟨?_, ?_, ?_⟩
  · intro p hp
    rcases (foldl_tickerStep_mem feed ([], []) p).1 hp with hx | ⟨e, he, h1, h2, h3, h4⟩
    · cases hx
    · exact ⟨h1 ▸ h3, h2 ▸ h4, e, he, h1, h2⟩
  · intro p hp
    rcases (foldl_tickerStep_mem feed ([], []) p).2 hp with hx | ⟨e, he, h1, h2, h3, h4⟩
    · cases hx
    · exact ⟨h1 ▸ h4, h2 ▸ h3, e, he, h1, h2⟩
  · intro e he ht hc
    obtain ⟨pre, post, hfeed⟩ := List.append_of_mem he
    rw [hfeed, get_ticker_to_cik_mapping, List.foldl_append, List.foldl_cons]
    have hstep : tickerStep (pre.foldl tickerStep ([], [])) e =
        (insA (pre.foldl tickerStep ([], [])).1 (normTicker e) (normCik e),
         insA (pre.foldl tickerStep ([], [])).2 (normCik e) (normTicker e)) := by
      rw [tickerStep, if_pos ⟨ht, hc⟩]
    rw [hstep]
    constructor
    · exact (foldl_tickerStep_isSome post _ (normTicker e)).1
        (by rw [lookupA_insA_self]; rfl)
    · exact (foldl_tickerStep_isSome post _ (normCik e)).2
        (by rw [lookupA_insA_self]; rfl)

/-- Witness for C8: the whitespace-padded entry of `feed8` is inserted in
both directions under its normalised (upper-cased, untrimmed ticker;
trimmed identifier) keys. -/
theorem c8_witness :
    (lookupA (get_ticker_to_cik_mapping feed8).1 (normTicker ⟨" aapl ", " 1 "⟩)).isSome
        = true ∧
    (lookupA (get_ticker_to_cik_mapping feed8).2 (normCik ⟨" aapl ", " 1 "⟩)).isSome
        = true :=
  ((c8_entry_normalisation feed8).2.2 ⟨" aapl ", " 1 "⟩ (by decide) (by decide) (by decide))

/-- Counterexample to C8 as stated ("ticker upper-cased and trimmed"): the
ticker `" aapl "` is upper-cased but not trimmed, so the map key is
`" AAPL "` and a lookup under the trimmed key `"AAPL"` fails. -/
theorem c8_counterexample :
    lookupA (get_ticker_to_cik_mapping feed8).1 "AAPL" = none ∧
    lookupA (get_ticker_to_cik_mapping feed8).1 " AAPL " = some "1" := by
  decide

/-- C9: for both the index fetch and the filing-bundle fetch, statuses 403
and 404 yield an empty result (empty record list, empty text) and no error,
while every other non-success (4xx/5xx) status yields a `TransportErr`. -/
theorem c9_status_policy (status : Nat) (body : String) :
    ((status = 403 ∨ status = 404) →
      download_and_parse_index status body = Except.ok [] ∧
      fetch_filing_content status body = Except.ok "") ∧
    (400 ≤ status → status < 600 → status ≠ 403 → status ≠ 404 →
      download_and_parse_index status body
          = Except.error (TransportErr.httpError status) ∧
      fetch_filing_content status body
          = Except.error (TransportErr.httpError status)) := by
  constructor
  · intro h
    rw [download_and_parse_index, if_pos h, fetch_filing_content, if_pos h]
    exact ⟨rfl, rfl⟩
  · intro h1 h2 h3 h4
    have hne : ¬ (status = 403 ∨ status = 404) := by
      rintro (hx | hx)
      · exact h3 hx
      · exact h4 hx
    have hr : raiseForStatus status = Except.error (TransportErr.httpError status) := by
      rw [raiseForStatus, if_pos ⟨h1, h2⟩]
    rw [download_and_parse_index, if_neg hne, hr, fetch_filing_content, if_neg hne, hr]
    exact ⟨rfl, rfl⟩

/-- Witness for C9 at statuses 404, 403, 500 and 503. -/
theorem c9_witness :
    download_and_parse_index 404 "" = Except.ok [] ∧
    download_and_parse_index 500 "" = Except.error (TransportErr.httpError 500) ∧
    fetch_filing_content 403 "body" = Except.ok "" ∧
    fetch_filing_content 503 "body" = Except.error (TransportErr.httpError 503) :=
  ⟨((c9_status_policy 404 "").1 (Or.inr rfl)).1,
   ((c9_status_policy 500 "").2 (by omega) (by omega) (by omega) (by omega)).1,
   ((c9_status_policy 403 "body").1 (Or.inl rfl)).2,
   ((c9_status_policy 503 "body").2 (by omega) (by omega) (by omega) (by omega)).2⟩

/-- C10: every item-number string in the extractor's output has the shape
`\d+\.\d+` (one or more digits, a dot, one or more digits and nothing
else), so the float parse used as the final sort key is defined on it — in
the embedding, the exact-value key `itemKey` has a positive denominator —
and the extractor (a total Lean function) never fails while sorting. -/
theorem c10_item_shape (content : String) (d : FilingItem)
    (h : d ∈ extract_8k_items content) :
    isItemShape d.item = true ∧ 0 < (itemKey d.item).2 := by
  constructor
  · obtain ⟨m, hm, hd⟩ := extract_mem_mk content d h
    rw [hd]
    exact scanItems_shape content.data m hm
  · exact itemKey_den_pos _

/-- Witness for C10 at the concrete bundle `ce1`. -/
theorem c10_witness : isItemShape dEx1.item = true ∧ 0 < (itemKey dEx1.item).2 :=
  c10_item_shape ce1 dEx1 (by decide)

end SecNotifications
